import Mathlib

/-!
# gopher-luar: struct and pointer handlers

A shallow embedding of `struct.go`, `ptr.go` and `metatable.go`.

The handlers work on Go values through the `reflect` package, so the embedding
carries a small model of what they use of it: Go types and values, a heap of
cells addressed by locations (a cell and a path of field or element indices
inside it, so that the address of a nested field is a location too), and
`reflect.Value` with its addressability and read-only flags.

Kinds represented: bool, int, string, pointer, slice, array, struct.  Types are
finite trees.  A Lua number is an integer here.
-/

namespace Luar

/-! ## Go types and values -/

/-- The kinds of `reflect.Kind` that the model represents. -/
inductive Kind where
  | Invalid | Bool | Int | String | Ptr | Slice | Array | Struct
  deriving DecidableEq, Repr

mutual
/-- Go types.  A struct type lists, for each field in declaration order, whether
the field is exported, whether it is embedded, and its type. -/
inductive GoType where
  | bool
  | int
  | string
  | ptr (elem : GoType)
  | slice (elem : GoType)
  | array (len : Nat) (elem : GoType)
  | struct (fields : FieldTypes)
  deriving DecidableEq, Repr
/-- The field declarations of a struct type. -/
inductive FieldTypes where
  | nil
  | cons (exported embedded : Bool) (typ : GoType) (rest : FieldTypes)
  deriving DecidableEq, Repr
end

/-- A memory location: a heap cell and a path of field or element indices
into the value stored there. -/
structure Loc where
  cell : Nat
  path : List Nat
  deriving DecidableEq, Repr

/-- A non-nil slice header: the cell of the backing array, length, capacity. -/
structure SliceHdr where
  data : Nat
  len : Nat
  cap : Nat
  deriving DecidableEq, Repr

mutual
/-- Go values.  A pointer and a slice carry their element type, so that a nil
one still has a type; a struct carries its field declarations. -/
inductive GoVal where
  | bool (b : Bool)
  | int (i : Int)
  | str (s : String)
  | ptr (elem : GoType) (target : Option Loc)
  | slice (elem : GoType) (hdr : Option SliceHdr)
  | array (elem : GoType) (elems : Vals)
  | struct (decl : FieldTypes) (fields : Vals)
  deriving DecidableEq, Repr
/-- A sequence of values: the elements of an array, the fields of a struct. -/
inductive Vals where
  | nil
  | cons (v : GoVal) (rest : Vals)
  deriving DecidableEq, Repr
end

/-- The declaration of field `i`. -/
def FieldTypes.get? : FieldTypes → Nat → Option (Bool × Bool × GoType)
  | .nil, _ => none
  | .cons e m t _, 0 => some (e, m, t)
  | .cons _ _ _ rest, i + 1 => rest.get? i

/-- The number of values. -/
def Vals.length : Vals → Nat
  | .nil => 0
  | .cons _ rest => rest.length + 1

/-- The value at position `i`. -/
def Vals.get? : Vals → Nat → Option GoVal
  | .nil, _ => none
  | .cons v _, 0 => some v
  | .cons _ rest, i + 1 => rest.get? i

/-- Replace the value at position `i` (no change when `i` is out of range). -/
def Vals.set : Vals → Nat → GoVal → Vals
  | .nil, _, _ => .nil
  | .cons _ rest, 0, x => .cons x rest
  | .cons v rest, i + 1, x => .cons v (rest.set i x)

/-- The sequence of `n` copies of `v`. -/
def Vals.replicate : Nat → GoVal → Vals
  | 0, _ => .nil
  | n + 1, v => .cons v (Vals.replicate n v)

mutual
/-- The zero value of a type (`reflect.Zero`). -/
def GoType.zero : GoType → GoVal
  | .bool => .bool false
  | .int => .int 0
  | .string => .str ""
  | .ptr e => .ptr e none
  | .slice e => .slice e none
  | .array n e => .array e (Vals.replicate n (GoType.zero e))
  | .struct fs => .struct fs (FieldTypes.zeros fs)
/-- The zero values of the fields of a struct type. -/
def FieldTypes.zeros : FieldTypes → Vals
  | .nil => .nil
  | .cons _ _ t rest => .cons (GoType.zero t) (FieldTypes.zeros rest)
end

/-- The type of a value (`reflect.TypeOf`). -/
def GoVal.typeOf : GoVal → GoType
  | .bool _ => .bool
  | .int _ => .int
  | .str _ => .string
  | .ptr e _ => .ptr e
  | .slice e _ => .slice e
  | .array e vs => .array vs.length e
  | .struct d _ => .struct d

/-- The kind of a type. -/
def GoType.kind : GoType → Kind
  | .bool => .Bool
  | .int => .Int
  | .string => .String
  | .ptr _ => .Ptr
  | .slice _ => .Slice
  | .array _ _ => .Array
  | .struct _ => .Struct

/-- The kind of a value. -/
def GoVal.kind (v : GoVal) : Kind := v.typeOf.kind

/-! ## The heap -/

/-- The heap: cell `n` is the `n`-th entry.  Allocation appends a cell. -/
abbrev Heap := List GoVal

/-- The part of `v` found by following `path` through struct fields and array
elements. -/
def readPath : GoVal → List Nat → Option GoVal
  | v, [] => some v
  | .struct _ fs, i :: p =>
    match fs.get? i with
    | some f => readPath f p
    | none => none
  | .array _ es, i :: p =>
    match es.get? i with
    | some e => readPath e p
    | none => none
  | _, _ :: _ => none

/-- The value `v` with the part at `path` replaced by `x`. -/
def writePath : GoVal → List Nat → GoVal → Option GoVal
  | _, [], x => some x
  | .struct d fs, i :: p, x =>
    match fs.get? i with
    | some f =>
      match writePath f p x with
      | some f1 => some (.struct d (fs.set i f1))
      | none => none
    | none => none
  | .array t es, i :: p, x =>
    match es.get? i with
    | some e =>
      match writePath e p x with
      | some e1 => some (.array t (es.set i e1))
      | none => none
    | none => none
  | _, _ :: _, _ => none

/-- The value stored at a location. -/
def Heap.read (h : Heap) (l : Loc) : Option GoVal :=
  match h[l.cell]? with
  | some v => readPath v l.path
  | none => none

/-- The heap with the value at a location replaced. -/
def Heap.write (h : Heap) (l : Loc) (x : GoVal) : Option Heap :=
  match h[l.cell]? with
  | some v =>
    match writePath v l.path x with
    | some v1 => some (h.set l.cell v1)
    | none => none
  | none => none

/-- Two paths are apart when neither leads into the part the other names. -/
def pathsApart : List Nat → List Nat → Bool
  | [], _ => false
  | _, [] => false
  | i :: p, j :: q => if i = j then pathsApart p q else true

/-- Two locations are apart when they lie in different cells, or in one cell
along paths that are apart. -/
def Loc.apart (a b : Loc) : Bool :=
  if a.cell = b.cell then pathsApart a.path b.path else true

/-- Two values route a field path alike: they have one type, a struct has the
same fields present, and a pointer to a struct is the same pointer. -/
def sameRoute (a b : GoVal) : Prop :=
  a.typeOf = b.typeOf ∧
  (∀ d fs d1 fs1, a = .struct d fs → b = .struct d1 fs1 →
    ∀ j, (fs.get? j).isSome = (fs1.get? j).isSome) ∧
  (∀ t tgt, a = .ptr (.struct t) tgt → b = a)

/-- Every value read in `h` is read in `h1`, and routes alike. -/
def Heap.routesInto (h h1 : Heap) : Prop :=
  ∀ (l : Loc) (u : GoVal), h.read l = some u → ∃ u1, h1.read l = some u1 ∧ sameRoute u u1

/-! ## Script values -/

/-- ReflectOptions: the behaviour flags carried by every proxy. -/
structure ReflectOptions where
  Immutable : Bool
  TransparentPointers : Bool
  AutoPopulate : Bool
  deriving DecidableEq, Repr

/-- Script values (`lua.LValue`).  Functions and tables are references, named
by a number; a userdata is a proxy: the `reflectedInterface` it holds, a Go
value with the options it was wrapped with. -/
inductive LValue where
  | nil
  | bool (b : Bool)
  | number (n : Int)
  | string (s : String)
  | function (id : Nat)
  | table (id : Nat)
  | userdata (v : GoVal) (opts : ReflectOptions)
  deriving DecidableEq, Repr

/-- Modelled from the spec: `New`, the proxy wrapper, whose source is not among
the files at hand.  A nil host value wraps to the script nil; booleans,
numbers and strings become the native script values; every other value is
wrapped, with the flags, into a proxy handle. -/
def New (v : GoVal) (opts : ReflectOptions) : LValue :=
  match v with
  | .bool b => .bool b
  | .int i => .number i
  | .str s => .string s
  | .ptr _ none => .nil
  | .slice _ none => .nil
  | _ => .userdata v opts

/-- How a handler ends: it returns (with the value it pushed, if any), raises a
script error (`L.RaiseError`, `L.ArgError`), or the Go runtime panics. -/
inductive Outcome where
  | ret (pushed : Option LValue)
  | raise (msg : String)
  | panic (msg : String)
  deriving DecidableEq, Repr

/-! ## reflect.Value -/

deriving instance DecidableEq for Except

/-- A `reflect.Value`: the zero Value; a value held directly, not addressable;
or an addressable value, whose content is whatever the heap holds at its
location.  `stickyRO` and `embedRO` are the two read-only flag bits. -/
inductive RValue where
  | invalid
  | direct (v : GoVal) (stickyRO embedRO : Bool)
  | addr (loc : Loc) (stickyRO embedRO : Bool)
  deriving DecidableEq, Repr

/-- The result of `reflect.ValueOf` on a non-nil interface value. -/
def ValueOf (v : GoVal) : RValue := .direct v false false

/-- The content of a Value, read from the heap when it is addressable. -/
def RValue.load (v : RValue) (h : Heap) : Option GoVal :=
  match v with
  | .invalid => none
  | .direct x _ _ => some x
  | .addr l _ _ => h.read l

/-- Whether either read-only bit is set (`flagRO`). -/
def RValue.ro : RValue → Bool
  | .invalid => false
  | .direct _ s e => s || e
  | .addr _ s e => s || e

/-- Value.IsValid. -/
def RValue.IsValid : RValue → Bool
  | .invalid => false
  | _ => true

/-- Value.Kind. -/
def RValue.Kind (v : RValue) (h : Heap) : Kind :=
  match v.load h with
  | some x => x.kind
  | none => .Invalid

/-- Value.CanAddr. -/
def RValue.CanAddr : RValue → Bool
  | .addr _ _ _ => true
  | _ => false

/-- Value.CanSet: addressable and not reached through an unexported field. -/
def RValue.CanSet (v : RValue) : Bool := v.CanAddr && !v.ro

/-- Value.CanInterface; it panics on the zero Value. -/
def RValue.CanInterface : RValue → Except String Bool
  | .invalid => .error "reflect: call of reflect.Value.CanInterface on zero Value"
  | v => .ok (!v.ro)

/-- Value.IsNil, for the pointer and slice kinds it is called on here. -/
def RValue.IsNil (v : RValue) (h : Heap) : Bool :=
  match v.load h with
  | some (.ptr _ none) => true
  | some (.slice _ none) => true
  | _ => false

/-- Value.Elem of a pointer: the zero Value for a nil pointer, otherwise the
addressable pointee, the read-only bits kept. -/
def RValue.Elem (v : RValue) (h : Heap) : Except String RValue :=
  match v.load h with
  | some (.ptr _ none) => .ok .invalid
  | some (.ptr _ (some l)) =>
    match v with
    | .direct _ s e => .ok (.addr l s e)
    | .addr _ s e => .ok (.addr l s e)
    | .invalid => .ok .invalid
  | _ => .error "reflect: call of reflect.Value.Elem on non-pointer Value"

/-- The function reflect.Indirect: the pointee of a pointer, any other Value
unchanged. -/
def Indirect (v : RValue) (h : Heap) : RValue :=
  match v.load h with
  | some (.ptr _ none) => .invalid
  | some (.ptr _ (some l)) =>
    match v with
    | .direct _ s e => .addr l s e
    | .addr _ s e => .addr l s e
    | .invalid => .invalid
  | _ => v

/-- Value.Field: field `i` of a struct.  Only the sticky read-only bit is
inherited; an unexported field sets the embed bit when it is embedded and the
sticky bit otherwise.  A field of an addressable struct is addressable. -/
def RValue.Field (v : RValue) (i : Nat) (h : Heap) : Except String RValue :=
  match v.load h with
  | some (.struct d fs) =>
    match d.get? i, fs.get? i with
    | some (exported, embedded, _), some f =>
      let sticky := (match v with
        | .direct _ s _ => s
        | .addr _ s _ => s
        | .invalid => false) || (!exported && !embedded)
      let embed := !exported && embedded
      match v with
      | .addr l _ _ => .ok (.addr ⟨l.cell, l.path ++ [i]⟩ sticky embed)
      | _ => .ok (.direct f sticky embed)
    | _, _ => .error "reflect: Field index out of range"
  | _ => .error "reflect: call of reflect.Value.Field on non-struct Value"

/-- The loop of Value.FieldByIndex: before every step but the first, a pointer
to a struct is followed, and a nil one panics. -/
def RValue.fieldByIndexLoop (v : RValue) (first : Bool) (h : Heap) :
    List Nat → Except String RValue
  | [] => .ok v
  | x :: rest =>
    let stepped : Except String RValue :=
      if first then .ok v
      else
        match v.load h with
        | some (.ptr (.struct _) none) =>
          .error "reflect: indirection through nil pointer to embedded struct"
        | some (.ptr (.struct _) (some _)) => v.Elem h
        | _ => .ok v
    match stepped with
    | .error e => .error e
    | .ok v1 =>
      match v1.Field x h with
      | .error e => .error e
      | .ok f => RValue.fieldByIndexLoop f false h rest

/-- Value.FieldByIndex: the nested field reached by the index path; the
receiver must be a struct. -/
def RValue.FieldByIndex (v : RValue) (index : List Nat) (h : Heap) :
    Except String RValue :=
  match index with
  | [i] => v.Field i h
  | _ =>
    if v.Kind h = .Struct then RValue.fieldByIndexLoop v true h index
    else .error "reflect: call of reflect.Value.FieldByIndex on non-struct Value"

/-- Value.Type, for a Value that has a content. -/
def RValue.Type (v : RValue) (h : Heap) : Option GoType :=
  match v.load h with
  | some x => some x.typeOf
  | none => none

/-- Type.Elem: the element type of a pointer, slice or array type. -/
def GoType.Elem : GoType → Option GoType
  | .ptr e => some e
  | .slice e => some e
  | .array _ e => some e
  | _ => none

/-- Value.Set: the receiver must be settable, the source valid and not reached
through an unexported field, and of the receiver's type; the content of the
source is copied to the receiver's location. -/
def RValue.Set (v : RValue) (x : RValue) (h : Heap) : Except String Heap :=
  match v with
  | .addr l s e =>
    if s || e then
      .error "reflect: reflect.Value.Set using value obtained using unexported field"
    else if x.ro then
      .error "reflect: reflect.Value.Set using value obtained using unexported field"
    else
      match h.read l, x.load h with
      | some old, some new =>
        if new.typeOf = old.typeOf then
          match h.write l new with
          | some h1 => .ok h1
          | none => .error "invalid memory address"
        else .error "reflect.Set: value is not assignable to the type"
      | _, _ => .error "reflect: call of reflect.Value.Set on zero Value"
  | _ => .error "reflect: reflect.Value.Set using unaddressable value"

/-- Value.Addr: a pointer to an addressable Value, the read-only bits kept. -/
def RValue.Addr (v : RValue) (h : Heap) : Except String RValue :=
  match v with
  | .addr l s e =>
    match h.read l with
    | some x => .ok (.direct (.ptr x.typeOf (some l)) s e)
    | none => .error "invalid memory address"
  | _ => .error "reflect.Value.Addr of unaddressable value"

/-- Value.Interface: the content as a value; it panics on the zero Value and on
a Value reached through an unexported field. -/
def RValue.Interface (v : RValue) (h : Heap) : Except String GoVal :=
  match v with
  | .invalid => .error "reflect: call of reflect.Value.Interface on zero Value"
  | _ =>
    if v.ro then
      .error "reflect.Value.Interface: cannot return value obtained from unexported field or method"
    else
      match v.load h with
      | some x => .ok x
      | none => .error "invalid memory address"

/-- The function reflect.New: a pointer to a fresh cell holding the zero value
of the type. -/
def reflectNew (t : GoType) (h : Heap) : RValue × Heap :=
  (.direct (.ptr t (some ⟨h.length, []⟩)) false false, h ++ [t.zero])

/-- The function reflect.MakeSlice: a slice of length `len` over a fresh
backing array of `cap` zero values. -/
def MakeSlice (typ : GoType) (len cap : Nat) (h : Heap) : Except String (RValue × Heap) :=
  match typ with
  | .slice elem =>
    .ok (.direct (.slice elem (some ⟨h.length, len, cap⟩)) false false,
      h ++ [.array elem (Vals.replicate cap elem.zero)])
  | _ => .error "reflect.MakeSlice of non-slice type"

/-- Value.Pointer of a pointer: its address, nothing for nil. -/
def RValue.Pointer (v : RValue) (h : Heap) : Option Loc :=
  match v.load h with
  | some (.ptr _ t) => t
  | _ => none

/-! ## metatable.go -/

/-- A string-keyed script table; a key that is absent reads as nil. -/
abbrev LTable (α : Type) := List (String × α)

/-- Metatable: the descriptor of a Go type.  `methods` and `ptr_methods` hold
script functions; every entry of `fields` is a userdata holding an index
path. -/
structure Metatable where
  methods : LTable LValue
  ptr_methods : LTable LValue
  fields : LTable (List Nat)

/-- LTable.RawGetString on a table of script values: nil when absent. -/
def RawGetString (t : LTable LValue) (name : String) : LValue :=
  match t.lookup name with
  | some v => v
  | none => .nil

/-- Metatable.method: the value-receiver method of that name, if any. -/
def Metatable.method (m : Metatable) (name : String) : Option LValue :=
  let fn := RawGetString m.methods name
  if fn ≠ .nil then some fn else none

/-- Metatable.ptrMethod: the pointer-receiver method of that name, if any. -/
def Metatable.ptrMethod (m : Metatable) (name : String) : Option LValue :=
  let fn := RawGetString m.ptr_methods name
  if fn ≠ .nil then some fn else none

/-- Metatable.fieldIndex: the index path of the field of that name, if any. -/
def Metatable.fieldIndex (m : Metatable) (name : String) : Option (List Nat) :=
  m.fields.lookup name

/-! ## struct.go -/

/-- The end of structIndex (struct.go lines 71-76): a struct or array that is
addressable is replaced by its address, and the value is wrapped with the
options of the parent. -/
def structIndex.push (field : RValue) (opts : ReflectOptions) (h : Heap) : Outcome × Heap :=
  if (field.Kind h = .Struct ∨ field.Kind h = .Array) ∧ field.CanAddr = true then
    match field.Addr h with
    | .error e => (.panic e, h)
    | .ok p =>
      match p.Interface h with
      | .error e => (.panic e, h)
      | .ok x => (.ret (some (New x opts)), h)
  else
    match field.Interface h with
    | .error e => (.panic e, h)
    | .ok x => (.ret (some (New x opts)), h)

/-- The dereference step of structIndex (struct.go lines 52-55): the pointee
replaces the pointer when it is valid. -/
def structIndex.deref (field : RValue) (opts : ReflectOptions) (h : Heap) : Outcome × Heap :=
  match field.Elem h with
  | .error e => (.panic e, h)
  | .ok el => if el.IsValid then structIndex.push el opts h else structIndex.push field opts h

/-- The switch of structIndex on the kind of the field (struct.go lines 39-69),
followed by the end of the handler: under TransparentPointers a nil pointer
field is set to a fresh zero value and a pointer field is replaced by its
pointee, and a nil slice field is set to an empty slice of capacity 10. -/
def structIndex.switch (field : RValue) (opts : ReflectOptions) (key : String) (h : Heap) :
    Outcome × Heap :=
  match field.Kind h with
  | .Ptr =>
    if opts.TransparentPointers then
      if !field.IsValid || field.IsNil h then
        if !field.CanSet then (.raise ("cannot transparently create pointer field " ++ key), h)
        else if !opts.Immutable then
          match (field.Type h).bind GoType.Elem with
          | none => (.panic "reflect: Elem of invalid type", h)
          | some t =>
            match field.Set (reflectNew t h).1 (reflectNew t h).2 with
            | .error e => (.panic e, (reflectNew t h).2)
            | .ok h1 => structIndex.deref field opts h1
        else structIndex.deref field opts h
      else structIndex.deref field opts h
    else structIndex.push field opts h
  | .Slice =>
    if opts.TransparentPointers then
      if !field.IsValid || field.IsNil h then
        if !field.CanSet then (.raise ("cannot transparently create slice " ++ key), h)
        else if !opts.Immutable then
          match (field.Type h).elim (.error "reflect: invalid type") (MakeSlice · 0 10 h) with
          | .error e => (.panic e, h)
          | .ok (s, h1) =>
            match field.Set s h1 with
            | .error e => (.panic e, h1)
            | .ok h2 => structIndex.push field opts h2
        else structIndex.push field opts h
      else structIndex.push field opts h
    else structIndex.push field opts h
  | _ => structIndex.push field opts h

/-- The handler structIndex of struct.go, on what `check` and `CheckString`
return: the value-receiver method when the proxy is not in pointer form, then
the pointer-receiver method, then the field. -/
def structIndex (ref : RValue) (opts : ReflectOptions) (mt : Metatable) (isPtr : Bool)
    (key : String) (h : Heap) : Outcome × Heap :=
  match (if isPtr = false then mt.method key else none) with
  | some fn => (.ret (some fn), h)
  | none =>
  match mt.ptrMethod key with
  | some fn =>
    if opts.Immutable then (.raise "cannot call pointer methods on immutable objects", h)
    else (.ret (some fn), h)
  | none =>
  match mt.fieldIndex key with
  | none => (.ret none, h)
  | some index =>
  match (Indirect ref h).FieldByIndex index h with
  | .error e => (.panic e, h)
  | .ok field =>
  match field.CanInterface with
  | .error e => (.panic e, h)
  | .ok false => (.raise ("cannot interface field " ++ key), h)
  | .ok true => structIndex.switch field opts key h

/-- Modelled from the spec: `lValueToReflect`, the value converter in
assignment-conversion mode, whose source is not among the files at hand: given
a script value and the required host type it produces a host value or raises a
script error.  It is a parameter of the handlers that call it.  It reads the
heap and may allocate cells, which are appended; it writes to no existing
cell.  The Value it returns may be the zero Value. -/
abbrev Converter := LValue → GoType → Heap → Except String (RValue × List GoVal)

/-- The handler structNewIndex of struct.go, on what `check`, `CheckString`
and `CheckAny` return. -/
def structNewIndex (lValueToReflect : Converter) (ref : RValue) (opts : ReflectOptions)
    (mt : Metatable) (isPtr : Bool) (key : String) (value : LValue) (h : Heap) :
    Outcome × Heap :=
  if opts.Immutable then (.raise "invalid operation on immutable struct", h)
  else
  match (if isPtr then ref.Elem h else .ok ref) with
  | .error e => (.panic e, h)
  | .ok ref =>
  match mt.fieldIndex key with
  | none => (.raise ("unknown field " ++ key), h)
  | some index =>
  match ref.FieldByIndex index h with
  | .error e => (.panic e, h)
  | .ok field =>
  match field.Type h with
  | none => (.panic "reflect: call of reflect.Value.Type on zero Value", h)
  | some ftyp =>
  match (if opts.TransparentPointers && ftyp.kind = .Ptr then ftyp.Elem else none) with
  | some hint =>
    match lValueToReflect value hint h with
    | .error msg => (.raise msg, h)
    | .ok (goValue, cells) =>
      if !field.CanSet then (.raise ("cannot set field " ++ key), h ++ cells)
      else
        match goValue.Type (h ++ cells) with
        | none => (.panic "reflect: call of reflect.Value.Type on zero Value", h ++ cells)
        | some t =>
          match field.Set (reflectNew t (h ++ cells)).1 (reflectNew t (h ++ cells)).2 with
          | .error e => (.panic e, (reflectNew t (h ++ cells)).2)
          | .ok h1 =>
            match field.Elem h1 with
            | .error e => (.panic e, h1)
            | .ok el =>
              match el.Set goValue h1 with
              | .error e => (.panic e, h1)
              | .ok h2 => (.ret none, h2)
  | none =>
    if !field.CanSet then (.raise ("cannot set field " ++ key), h)
    else
      match lValueToReflect value ftyp h with
      | .error msg => (.raise msg, h)
      | .ok (goValue, cells) =>
        match field.Set goValue (h ++ cells) with
        | .error e => (.panic e, h ++ cells)
        | .ok h1 => (.ret none, h1)

/-! ## ptr.go -/

/-- The function checkPtr of ptr.go: argument `idx` must be a proxy over a
pointer.  `mt` stands for the metatable attached to that userdata. -/
def checkPtr (args : List LValue) (idx : Nat) (mt : Metatable) :
    Except String (RValue × ReflectOptions × Metatable) :=
  match args[idx - 1]? with
  | some (.userdata v opts) =>
    if v.kind ≠ .Ptr then
      .error ("bad argument #" ++ toString idx ++ " (expecting ptr)")
    else .ok (ValueOf v, opts, mt)
  | _ => .error ("bad argument #" ++ toString idx ++ " (userdata expected)")

/-- The handler ptrIndex of ptr.go. -/
def ptrIndex (args : List LValue) (mt : Metatable) (key : String) (h : Heap) : Outcome × Heap :=
  match checkPtr args 1 mt with
  | .error msg => (.raise msg, h)
  | .ok (_, _, mt) =>
    match mt.ptrMethod key with
    | some fn => (.ret (some fn), h)
    | none =>
      match mt.method key with
      | some fn => (.ret (some fn), h)
      | none => (.ret none, h)

/-- The handler ptrPow of ptr.go.  It pushes nothing and returns 1, so its
result is the value on top of the stack. -/
def ptrPow (lValueToReflect : Converter) (args : List LValue) (mt : Metatable) (h : Heap) :
    Outcome × Heap :=
  match checkPtr args 1 mt with
  | .error msg => (.raise msg, h)
  | .ok (ref, opts, _) =>
    if opts.Immutable then (.raise "invalid operation for immutable pointer", h)
    else
      match args[1]? with
      | none => (.raise "bad argument #2 (value expected)", h)
      | some val =>
        if ref.IsNil h then (.raise "cannot dereference nil pointer", h)
        else
          match ref.Elem h with
          | .error e => (.panic e, h)
          | .ok elem =>
            if !elem.CanSet then (.raise "unable to set pointer value", h)
            else
              match elem.Type h with
              | none => (.panic "reflect: call of reflect.Value.Type on zero Value", h)
              | some t =>
                match lValueToReflect val t h with
                | .error msg => (.raise msg, h)
                | .ok (value, cells) =>
                  if !value.IsValid then (.raise "unable to set pointer value", h ++ cells)
                  else
                    match elem.Set value (h ++ cells) with
                    | .error e => (.panic e, h ++ cells)
                    | .ok h1 => (.ret args.getLast?, h1)

/-- The handler ptrUnm of ptr.go.  The message of its error leaves out the
name of the pointer type. -/
def ptrUnm (args : List LValue) (mt : Metatable) (h : Heap) : Outcome × Heap :=
  match checkPtr args 1 mt with
  | .error msg => (.raise msg, h)
  | .ok (ref, opts, _) =>
    match ref.Elem h with
    | .error e => (.panic e, h)
    | .ok elem =>
      match elem.CanInterface with
      | .error e => (.panic e, h)
      | .ok false => (.raise "cannot interface pointer type", h)
      | .ok true =>
        match elem.Interface h with
        | .error e => (.panic e, h)
        | .ok x => (.ret (some (New x opts)), h)

/-- The handler ptrEq of ptr.go: both references are read from argument 1. -/
def ptrEq (args : List LValue) (mt : Metatable) (h : Heap) : Outcome × Heap :=
  match checkPtr args 1 mt with
  | .error msg => (.raise msg, h)
  | .ok (ref1, _, _) =>
    match checkPtr args 1 mt with
    | .error msg => (.raise msg, h)
    | .ok (ref2, _, _) =>
      (.ret (some (.bool (decide (ref1.Pointer h = ref2.Pointer h)))), h)

/-! ## Example data, after the tests of the repository -/

/-- The type StructTestPerson of the tests, its fields Name and Age. -/
def tPerson : FieldTypes := .cons true false .string (.cons true false .int .nil)

/-- The person Tim, aged 66, of Test_struct_immutable_Edit. -/
def vTim : GoVal := .struct tPerson (.cons (.str "Tim") (.cons (.int 66) .nil))

/-- The descriptor of StructTestPerson: the fields under their names and the
lower-case variants, the value-receiver method Hello and the pointer-receiver
method IncreaseAge. -/
def mtPerson : Metatable :=
  { methods := [("Hello", .function 1), ("hello", .function 1)],
    ptr_methods := [("IncreaseAge", .function 2), ("increaseAge", .function 2)],
    fields := [("Name", [0]), ("name", [0]), ("Age", [1]), ("age", [1])] }

/-- A heap whose only cell holds Tim. -/
def hTim : Heap := [vTim]

/-- The pointer to Tim in `hTim`. -/
def pTim : GoVal := .ptr (.struct tPerson) (some ⟨0, []⟩)

/-- A converter for the examples: a number for an int, a string for a string,
a proxy for the type of the value it holds; anything else raises. -/
def convBasic : Converter := fun v t _ =>
  match v, t with
  | .number n, .int => .ok (ValueOf (.int n), [])
  | .string s, .string => .ok (ValueOf (.str s), [])
  | .userdata x _, t => if x.typeOf = t then .ok (ValueOf x, []) else .error "cannot convert"
  | _, _ => .error "cannot convert"

/-- The type TestTransparentPtrAccessB of the tests: one field, Str *string. -/
def tB : FieldTypes := .cons true false (.ptr .string) .nil

/-- The type TestTransparentPtrAccessA of the tests: one field,
B *TestTransparentPtrAccessB. -/
def tA : FieldTypes := .cons true false (.ptr (.struct tB)) .nil

/-- The descriptor of TestTransparentPtrAccessB. -/
def mtB : Metatable := { methods := [], ptr_methods := [], fields := [("Str", [0]), ("str", [0])] }

/-- The descriptor of TestTransparentPtrAccessA. -/
def mtA : Metatable := { methods := [], ptr_methods := [], fields := [("B", [0]), ("b", [0])] }

/-- The heap of Test_struct_immutable_transparentptraccess: cell 0 holds the
string "foo", cell 1 a TestTransparentPtrAccessB whose Str points to it. -/
def hFoo : Heap := [.str "foo", .struct tB (.cons (.ptr .string (some ⟨0, []⟩)) .nil)]

/-- A heap whose only cell holds a zero TestTransparentPtrAccessA. -/
def hA : Heap := [GoType.zero (.struct tA)]

/-- A heap whose only cell holds a zero TestTransparentPtrAccessB. -/
def hB : Heap := [GoType.zero (.struct tB)]

/-- A TestTransparentPtrAccessB whose Str points to cell 0. -/
def vB : GoVal := .struct tB (.cons (.ptr .string (some ⟨0, []⟩)) .nil)

/-- The heap of Test_struct_transparentptr_varassign: cell 0 holds the string,
cell 1 the struct `b` whose Str points to it, cell 2 the zero struct `a`. -/
def hVar : Heap := [.str "assigned ptr value", vB, GoType.zero (.struct tA)]

/-- The type of `x` in Test_struct_immutable_nonautopop: Ptr *int, List []int. -/
def tX : FieldTypes := .cons true false (.ptr .int) (.cons true false (.slice .int) .nil)

/-- The descriptor of the type of `x`. -/
def mtX : Metatable :=
  { methods := [], ptr_methods := [],
    fields := [("Ptr", [0]), ("ptr", [0]), ("List", [1]), ("list", [1])] }

/-- A heap whose only cell holds the zero `x`. -/
def hX : Heap := [GoType.zero (.struct tX)]

/-- The options with TransparentPointers alone. -/
def optsTP : ReflectOptions := ⟨false, true, false⟩

/-- The options with TransparentPointers and AutoPopulate. -/
def optsTPAuto : ReflectOptions := ⟨false, true, true⟩

/-- The type StructTestHidden of the tests: Name, Name2, Str and Hidden. -/
def tHidden : FieldTypes :=
  .cons true false .string (.cons true false .string (.cons true false .string
    (.cons true false .bool .nil)))

/-- The descriptor of StructTestHidden: Name is exposed as name, Name2 as Name,
Str under both spellings, Hidden not at all. -/
def mtHidden : Metatable :=
  { methods := [], ptr_methods := [],
    fields := [("name", [0]), ("Name", [1]), ("Str", [2]), ("str", [2])] }

/-- The heap of Test_struct_hiddenfields: its only cell holds the struct `a`. -/
def hHidden : Heap :=
  [.struct tHidden (.cons (.str "tim") (.cons (.str "bob") (.cons (.str "asd123")
    (.cons (.bool true) .nil))))]

/-- The pointer to `a` in `hHidden`. -/
def pHidden : GoVal := .ptr (.struct tHidden) (some ⟨0, []⟩)

/-- The person John, aged 40, of Test_struct. -/
def vJohn : GoVal := .struct tPerson (.cons (.str "John") (.cons (.int 40) .nil))

/-- A heap of two persons, Tim in cell 0 and John in cell 1, after
Test_struct_pointers. -/
def hTwo : Heap := [vTim, vJohn]

/-- The pointer to John in `hTwo`. -/
def pJohn : GoVal := .ptr (.struct tPerson) (some ⟨1, []⟩)

/-- The options with no flag set. -/
def optsNone : ReflectOptions := ⟨false, false, false⟩

/-- A converter that yields the zero Value for every table and otherwise does
what `convBasic` does: the case of a table with a key that names no settable
field. -/
def convStrict : Converter := fun v t h =>
  match v with
  | .table _ => .ok (.invalid, [])
  | _ => convBasic v t h

/-- A descriptor in which the key Hello names both the value-receiver method
Hello and a field: the field Name of StructTestPerson renamed to Hello. -/
def mtShadow : Metatable :=
  { methods := [("Hello", .function 1), ("hello", .function 1)],
    ptr_methods := [("IncreaseAge", .function 2), ("increaseAge", .function 2)],
    fields := [("Hello", [0]), ("Age", [1]), ("age", [1])] }

/-- A descriptor of StructTestPerson whose tables hold each name in its
declared spelling only. -/
def mtExact : Metatable :=
  { methods := [("Hello", .function 1)],
    ptr_methods := [("IncreaseAge", .function 2)],
    fields := [("Name", [0]), ("Age", [1])] }

/-- The type StructTestFamily of the tests, its fields Mother and Father. -/
def tFamily : FieldTypes :=
  .cons true false (.struct tPerson) (.cons true false (.struct tPerson) .nil)

/-- The descriptor of StructTestFamily. -/
def mtFamily : Metatable :=
  { methods := [], ptr_methods := [],
    fields := [("Mother", [0]), ("mother", [0]), ("Father", [1]), ("father", [1])] }

/-- The family of Test_struct_immutable_nested: Luara and Tim. -/
def vFamily : GoVal :=
  .struct tFamily (.cons (.struct tPerson (.cons (.str "Luara") (.cons (.int 0) .nil)))
    (.cons (.struct tPerson (.cons (.str "Tim") (.cons (.int 0) .nil))) .nil))

/-- A heap whose only cell holds the family. -/
def hFamily : Heap := [vFamily]

/-- The pointer to the family in `hFamily`. -/
def pFamily : GoVal := .ptr (.struct tFamily) (some ⟨0, []⟩)

/-- A struct type with one field, an embedded *StructTestFamily. -/
def tEmb : FieldTypes := .cons true true (.ptr (.struct tFamily)) .nil

/-- A value of that type whose embedded pointer points to the family in cell 0. -/
def vEmb : GoVal := .struct tEmb (.cons pFamily .nil)

/-- The descriptor of that type: the embedded field, and the fields Mother and
Father promoted through it. -/
def mtEmb : Metatable :=
  { methods := [], ptr_methods := [],
    fields := [("StructTestFamily", [0]), ("Mother", [0, 0]), ("Father", [0, 1])] }

/-- A struct type with one field, an embedded *TestTransparentPtrAccessA. -/
def tEmbA : FieldTypes := .cons true true (.ptr (.struct tA)) .nil

/-- The descriptor of that type: the embedded field, and the field B promoted
through it. -/
def mtEmbA : Metatable :=
  { methods := [], ptr_methods := [],
    fields := [("TestTransparentPtrAccessA", [0]), ("B", [0, 0])] }

/-- The heap `hVar` with one more cell, cell 3: a value of that type whose
embedded pointer points to the struct `a` in cell 2. -/
def hEmbA : Heap := hVar ++ [.struct tEmbA (.cons (.ptr (.struct tA) (some ⟨2, []⟩)) .nil)]

/-! ## Lemmas on values and the heap -/

theorem Vals.length_replicate (n : Nat) (v : GoVal) : (Vals.replicate n v).length = n := by
  induction n with
  | zero => rfl
  | succ n ih => simp [Vals.replicate, Vals.length, ih]

theorem GoType.typeOf_zero (t : GoType) : t.zero.typeOf = t := by
  cases t <;> simp [GoType.zero, GoVal.typeOf, Vals.length_replicate]

theorem Vals.get?_set_eq : ∀ (vs : Vals) (i : Nat) (v x : GoVal),
    vs.get? i = some v → (vs.set i x).get? i = some x
  | .nil, _, _, _, hv => by simp [Vals.get?] at hv
  | .cons _ _, 0, _, _, _ => by simp [Vals.set, Vals.get?]
  | .cons _ rest, i + 1, v, x, hv => by
    simp only [Vals.set, Vals.get?] at hv ⊢
    exact Vals.get?_set_eq rest i v x hv

theorem Vals.get?_set_ne : ∀ (vs : Vals) (i j : Nat) (x : GoVal),
    i ≠ j → (vs.set i x).get? j = vs.get? j
  | .nil, _, _, _, _ => by simp [Vals.set]
  | .cons _ _, 0, 0, _, hij => absurd rfl hij
  | .cons _ _, 0, _ + 1, _, _ => by simp [Vals.set, Vals.get?]
  | .cons _ _, _ + 1, 0, _, _ => by simp [Vals.set, Vals.get?]
  | .cons _ rest, i + 1, j + 1, x, hij => by
    simp only [Vals.set, Vals.get?]
    exact Vals.get?_set_ne rest i j x (fun h => hij (by rw [h]))

/-- Writing where a value can be read succeeds, and the new part is read back. -/
theorem readPath_writePath (v : GoVal) (p : List Nat) (old x : GoVal)
    (hr : readPath v p = some old) :
    ∃ v1, writePath v p x = some v1 ∧ readPath v1 p = some x := by
  induction p generalizing v with
  | nil => exact ⟨x, by simp [writePath], by simp [readPath]⟩
  | cons i p ih =>
    cases v with
    | struct d fs =>
      simp only [readPath] at hr
      cases hf : fs.get? i with
      | none => simp [hf] at hr
      | some f =>
        simp only [hf] at hr
        obtain ⟨f1, hw, hr1⟩ := ih f hr
        refine ⟨.struct d (fs.set i f1), by simp [writePath, hf, hw], ?_⟩
        simp [readPath, Vals.get?_set_eq fs i f f1 hf, hr1]
    | array t es =>
      simp only [readPath] at hr
      cases hf : es.get? i with
      | none => simp [hf] at hr
      | some f =>
        simp only [hf] at hr
        obtain ⟨f1, hw, hr1⟩ := ih f hr
        refine ⟨.array t (es.set i f1), by simp [writePath, hf, hw], ?_⟩
        simp [readPath, Vals.get?_set_eq es i f f1 hf, hr1]
    | bool b => simp [readPath] at hr
    | int b => simp [readPath] at hr
    | str b => simp [readPath] at hr
    | ptr a b => simp [readPath] at hr
    | slice a b => simp [readPath] at hr

/-- A write leaves what is read along a path apart from the written one. -/
theorem readPath_writePath_apart (v : GoVal) (p q : List Nat) (x v1 : GoVal)
    (hw : writePath v p x = some v1) (hpq : pathsApart p q = true) :
    readPath v1 q = readPath v q := by
  induction p generalizing v v1 q with
  | nil => simp [pathsApart] at hpq
  | cons i p ih =>
    cases q with
    | nil => simp [pathsApart] at hpq
    | cons j q =>
      simp only [pathsApart] at hpq
      cases v with
      | struct d fs =>
        simp only [writePath] at hw
        cases hf : fs.get? i with
        | none => simp [hf] at hw
        | some f =>
          simp only [hf] at hw
          cases hw1 : writePath f p x with
          | none => simp [hw1] at hw
          | some f1 =>
            simp only [hw1, Option.some.injEq] at hw
            subst hw
            by_cases hij : i = j
            · subst hij
              simp only [if_true] at hpq
              simp [readPath, Vals.get?_set_eq fs i f f1 hf, hf, ih f q f1 hw1 hpq]
            · simp [readPath, Vals.get?_set_ne fs i j f1 hij]
      | array t es =>
        simp only [writePath] at hw
        cases hf : es.get? i with
        | none => simp [hf] at hw
        | some f =>
          simp only [hf] at hw
          cases hw1 : writePath f p x with
          | none => simp [hw1] at hw
          | some f1 =>
            simp only [hw1, Option.some.injEq] at hw
            subst hw
            by_cases hij : i = j
            · subst hij
              simp only [if_true] at hpq
              simp [readPath, Vals.get?_set_eq es i f f1 hf, hf, ih f q f1 hw1 hpq]
            · simp [readPath, Vals.get?_set_ne es i j f1 hij]
      | bool b => simp [writePath] at hw
      | int b => simp [writePath] at hw
      | str b => simp [writePath] at hw
      | ptr a b => simp [writePath] at hw
      | slice a b => simp [writePath] at hw

theorem Heap.read_lt (h : Heap) (l : Loc) (v : GoVal) (hr : h.read l = some v) :
    l.cell < h.length := by
  unfold Heap.read at hr
  cases hg : h[l.cell]? with
  | none => simp [hg] at hr
  | some c =>
    rw [List.getElem?_eq_some] at hg
    exact hg.1

theorem Heap.read_append (h cells : Heap) (l : Loc) (hl : l.cell < h.length) :
    Heap.read (h ++ cells) l = h.read l := by
  simp [Heap.read, List.getElem?_append_left hl]

theorem Heap.read_append_new (h : Heap) (v : GoVal) :
    Heap.read (h ++ [v]) ⟨h.length, []⟩ = some v := by
  simp [Heap.read, readPath]

/-- Writing where a value can be read succeeds; the written value is read
back, the heap keeps its size and every location apart reads as before. -/
theorem Heap.write_of_read (h : Heap) (l : Loc) (old x : GoVal) (hr : h.read l = some old) :
    ∃ h1, h.write l x = some h1 ∧ h1.read l = some x ∧ h1.length = h.length ∧
      ∀ l2 : Loc, l.apart l2 = true → h1.read l2 = h.read l2 := by
  have hlt := Heap.read_lt h l old hr
  unfold Heap.read at hr
  cases hg : h[l.cell]? with
  | none => simp [hg] at hr
  | some c =>
    simp only [hg] at hr
    obtain ⟨c1, hw, hr1⟩ := readPath_writePath c l.path old x hr
    refine ⟨h.set l.cell c1, by simp [Heap.write, hg, hw], ?_, by simp, ?_⟩
    · simp [Heap.read, hlt, hr1]
    · intro l2 hap
      unfold Loc.apart at hap
      by_cases hc : l.cell = l2.cell
      · simp only [hc, if_true] at hap
        simp only [Heap.read]
        rw [← hc, List.getElem?_set_self hlt, hg]
        exact readPath_writePath_apart c l.path l2.path x c1 hw hap
      · simp only [Heap.read]
        rw [List.getElem?_set_ne hc]

/-! ## The claims -/

/-- C1: on a struct proxy whose options have Immutable set, structNewIndex
raises "invalid operation on immutable struct" for every key and value, and
the heap, hence every field of the struct, is unchanged; this holds whatever
TransparentPointers is, whether or not the key resolves to a field, and
whether or not the proxy is in pointer form. -/
theorem C1_structNewIndex_immutable (conv : Converter) (ref : RValue) (opts : ReflectOptions)
    (mt : Metatable) (isPtr : Bool) (key : String) (value : LValue) (h : Heap)
    (hI : opts.Immutable = true) :
    structNewIndex conv ref opts mt isPtr key value h =
      (.raise "invalid operation on immutable struct", h) := by
  simp [structNewIndex, hI]

theorem C1_structNewIndex_immutable_witness :
    structNewIndex convBasic (ValueOf vTim) ⟨true, false, false⟩ mtPerson false "Name"
        (.string "Tom") hTim =
      (.raise "invalid operation on immutable struct", hTim) :=
  C1_structNewIndex_immutable convBasic (ValueOf vTim) ⟨true, false, false⟩ mtPerson false "Name"
    (.string "Tom") hTim rfl

theorem structIndex.push_heap (field : RValue) (opts : ReflectOptions) (h : Heap) :
    (structIndex.push field opts h).2 = h := by
  unfold structIndex.push
  split
  · split
    · rfl
    · split <;> rfl
  · split <;> rfl

theorem structIndex.deref_heap (field : RValue) (opts : ReflectOptions) (h : Heap) :
    (structIndex.deref field opts h).2 = h := by
  unfold structIndex.deref
  split
  · rfl
  · split <;> exact structIndex.push_heap _ _ _

theorem structIndex.switch_heap_immutable (field : RValue) (opts : ReflectOptions)
    (key : String) (h : Heap) (hI : opts.Immutable = true) :
    (structIndex.switch field opts key h).2 = h := by
  unfold structIndex.switch
  simp only [hI]
  repeat' split
  all_goals first
    | rfl
    | exact structIndex.push_heap _ _ _
    | exact structIndex.deref_heap _ _ _
    | simp_all

/-- C2: on a struct proxy whose options have Immutable set, structIndex leaves
the heap, hence the struct, unchanged, for every key and every setting of
TransparentPointers and AutoPopulate, whether it returns a value, returns
nothing, raises or panics. -/
theorem C2_structIndex_immutable_frame (ref : RValue) (opts : ReflectOptions) (mt : Metatable)
    (isPtr : Bool) (key : String) (h : Heap) (hI : opts.Immutable = true) :
    (structIndex ref opts mt isPtr key h).2 = h := by
  unfold structIndex
  repeat' split
  all_goals first
    | rfl
    | exact structIndex.switch_heap_immutable _ _ _ _ hI

theorem C2_structIndex_immutable_frame_witness :
    (structIndex (ValueOf (.ptr (.struct tB) (some ⟨1, []⟩))) ⟨true, true, false⟩ mtB true "Str"
      hFoo).2 = hFoo :=
  C2_structIndex_immutable_frame (ValueOf (.ptr (.struct tB) (some ⟨1, []⟩))) ⟨true, true, false⟩
    mtB true "Str" hFoo rfl

/-- C3: when the lookup of structIndex reaches a pointer-receiver method (the
key is in ptr_methods, and the proxy is in pointer form or the key is no
value-receiver method), then with Immutable set it raises "cannot call pointer
methods on immutable objects" and returns no method, and with Immutable unset
it returns the method; the heap is unchanged either way. -/
theorem C3_structIndex_ptrMethod (ref : RValue) (opts : ReflectOptions) (mt : Metatable)
    (isPtr : Bool) (key : String) (h : Heap) (fn : LValue)
    (hp : mt.ptrMethod key = some fn) (hreach : isPtr = true ∨ mt.method key = none) :
    (opts.Immutable = true →
      structIndex ref opts mt isPtr key h =
        (.raise "cannot call pointer methods on immutable objects", h)) ∧
    (opts.Immutable = false → structIndex ref opts mt isPtr key h = (.ret (some fn), h)) := by
  have h1 : (if isPtr = false then mt.method key else none) = none := by
    rcases hreach with hi | hm
    · simp [hi]
    · simp [hm]
  constructor
  · intro hI
    unfold structIndex
    simp [h1, hp, hI]
  · intro hI
    unfold structIndex
    simp [h1, hp, hI]

theorem C3_structIndex_ptrMethod_witness :
    (structIndex (ValueOf pTim) ⟨true, false, false⟩ mtPerson true "IncreaseAge" hTim =
        (.raise "cannot call pointer methods on immutable objects", hTim)) ∧
    (structIndex (ValueOf pTim) ⟨false, false, false⟩ mtPerson true "IncreaseAge" hTim =
        (.ret (some (.function 2)), hTim)) :=
  ⟨(C3_structIndex_ptrMethod (ValueOf pTim) ⟨true, false, false⟩ mtPerson true "IncreaseAge" hTim
      (.function 2) (by decide) (Or.inl rfl)).1 rfl,
   (C3_structIndex_ptrMethod (ValueOf pTim) ⟨false, false, false⟩ mtPerson true "IncreaseAge" hTim
      (.function 2) (by decide) (Or.inl rfl)).2 rfl⟩

/-! ## Lemmas on structIndex -/

/-- A Value that is not read-only has both read-only bits clear. -/
theorem RValue.ro_false_cases (v : RValue) (hro : v.ro = false) :
    v = .invalid ∨ (∃ x, v = .direct x false false) ∨ (∃ l, v = .addr l false false) := by
  cases v with
  | invalid => exact Or.inl rfl
  | direct x s e =>
    simp only [RValue.ro, Bool.or_eq_false_iff] at hro
    exact Or.inr (Or.inl ⟨x, by rw [hro.1, hro.2]⟩)
  | addr l s e =>
    simp only [RValue.ro, Bool.or_eq_false_iff] at hro
    exact Or.inr (Or.inr ⟨l, by rw [hro.1, hro.2]⟩)

/-- Pushing a field that is neither a struct nor an array wraps its content. -/
theorem structIndex.push_plain (field : RValue) (opts : ReflectOptions) (h : Heap) (x : GoVal)
    (hl : field.load h = some x) (hro : field.ro = false)
    (hk : ¬ (x.kind = .Struct ∨ x.kind = .Array)) :
    structIndex.push field opts h = (.ret (some (New x opts)), h) := by
  have hv : field ≠ .invalid := by
    intro hc
    rw [hc] at hl
    simp [RValue.load] at hl
  unfold structIndex.push
  have hK : field.Kind h = x.kind := by simp [RValue.Kind, hl]
  rw [hK]
  simp only [hk, false_and, if_false]
  cases field with
  | invalid => exact absurd rfl hv
  | direct y s e => simp [RValue.Interface, hro, hl]
  | addr l s e => simp [RValue.Interface, hro, hl]

/-- Pushing an addressable struct or array wraps a pointer to it. -/
theorem structIndex.push_addr (l : Loc) (opts : ReflectOptions) (h : Heap) (x : GoVal)
    (hl : h.read l = some x) (hk : x.kind = .Struct ∨ x.kind = .Array) :
    structIndex.push (.addr l false false) opts h =
      (.ret (some (.userdata (.ptr x.typeOf (some l)) opts)), h) := by
  unfold structIndex.push
  have hK : (RValue.addr l false false).Kind h = x.kind := by simp [RValue.Kind, RValue.load, hl]
  rw [hK]
  simp [hk, RValue.CanAddr, RValue.Addr, hl, RValue.Interface, RValue.ro, RValue.load, New]

/-- The dereference step on a nil pointer field leaves the pointer, which is
wrapped to nil. -/
theorem structIndex.deref_nil (field : RValue) (opts : ReflectOptions) (h : Heap) (E : GoType)
    (hl : field.load h = some (.ptr E none)) (hro : field.ro = false) :
    structIndex.deref field opts h = (.ret (some .nil), h) := by
  unfold structIndex.deref
  simp only [RValue.Elem, hl, RValue.IsValid]
  rw [structIndex.push_plain field opts h (.ptr E none) hl hro (by simp [GoVal.kind, GoVal.typeOf, GoType.kind])]
  simp [New]

/-- The dereference step on a non-nil pointer field: the pointee is wrapped,
by its address when it is a struct or an array. -/
theorem structIndex.deref_some (field : RValue) (opts : ReflectOptions) (h : Heap) (E : GoType)
    (tl : Loc) (x : GoVal)
    (hl : field.load h = some (.ptr E (some tl))) (hro : field.ro = false)
    (hx : h.read tl = some x) :
    structIndex.deref field opts h =
      (.ret (some (if x.kind = .Struct ∨ x.kind = .Array
        then .userdata (.ptr x.typeOf (some tl)) opts else New x opts)), h) := by
  have hE : field.Elem h = .ok (.addr tl false false) := by
    rcases RValue.ro_false_cases field hro with hc | ⟨y, hc⟩ | ⟨l, hc⟩
    · rw [hc] at hl; simp [RValue.load] at hl
    · subst hc; simp only [RValue.Elem, hl]
    · subst hc; simp only [RValue.Elem, hl]
  unfold structIndex.deref
  simp only [hE, RValue.IsValid, if_true]
  by_cases hk : x.kind = .Struct ∨ x.kind = .Array
  · rw [structIndex.push_addr tl opts h x hx hk]
    simp [hk]
  · rw [structIndex.push_plain (.addr tl false false) opts h x (by simp [RValue.load, hx])
      (by simp [RValue.ro]) hk]
    simp [hk]

/-- When the key names no method that the lookup consults and resolves to a
field that can be interfaced, structIndex is its switch on that field. -/
theorem structIndex_field (ref : RValue) (opts : ReflectOptions) (mt : Metatable) (isPtr : Bool)
    (key : String) (h : Heap) (index : List Nat) (field : RValue)
    (hm : isPtr = true ∨ mt.method key = none) (hp : mt.ptrMethod key = none)
    (hf : mt.fieldIndex key = some index)
    (hfld : (Indirect ref h).FieldByIndex index h = .ok field)
    (hci : field.CanInterface = .ok true) :
    structIndex ref opts mt isPtr key h = structIndex.switch field opts key h := by
  have h1 : (if isPtr = false then mt.method key else none) = none := by
    rcases hm with hi | hm
    · simp [hi]
    · simp [hm]
  unfold structIndex
  simp [h1, hp, hf, hfld, hci]

/-- The switch on a settable nil pointer field, under TransparentPointers and
without Immutable: a cell holding the zero value of the pointee type is
allocated, the field is set to point to it, and the pointee is wrapped. -/
theorem structIndex.switch_populate (floc : Loc) (opts : ReflectOptions) (key : String)
    (h : Heap) (E : GoType)
    (hT : opts.TransparentPointers = true) (hI : opts.Immutable = false)
    (hnil : h.read floc = some (.ptr E none)) :
    ∃ h1, Heap.write (h ++ [E.zero]) floc (.ptr E (some ⟨h.length, []⟩)) = some h1 ∧
      structIndex.switch (.addr floc false false) opts key h =
        (.ret (some (if E.kind = .Struct ∨ E.kind = .Array
          then .userdata (.ptr E (some ⟨h.length, []⟩)) opts else New E.zero opts)), h1) ∧
      h1.read floc = some (.ptr E (some ⟨h.length, []⟩)) ∧
      h1.read ⟨h.length, []⟩ = some E.zero ∧
      ∀ l : Loc, floc.apart l = true → l.cell < h.length → h1.read l = h.read l := by
  have hlt := Heap.read_lt h floc _ hnil
  have hnil1 : Heap.read (h ++ [E.zero]) floc = some (.ptr E none) := by
    rw [Heap.read_append h _ floc hlt]; exact hnil
  obtain ⟨h1, hw, hr, _, hfr⟩ :=
    Heap.write_of_read (h ++ [E.zero]) floc _ (.ptr E (some ⟨h.length, []⟩)) hnil1
  have hapart : floc.apart ⟨h.length, []⟩ = true := by
    simp [Loc.apart, Nat.ne_of_lt hlt]
  have hnew : h1.read ⟨h.length, []⟩ = some E.zero := by
    rw [hfr _ hapart]; exact Heap.read_append_new h E.zero
  refine ⟨h1, hw, ?_, hr, hnew, ?_⟩
  · have hset : (RValue.addr floc false false).Set (reflectNew E h).1 (reflectNew E h).2 = .ok h1 := by
      simp [RValue.Set, reflectNew, RValue.ro, RValue.load, hnil1, GoVal.typeOf, hw]
    have hd := structIndex.deref_some (.addr floc false false) opts h1 E ⟨h.length, []⟩ E.zero
      (by simp [RValue.load, hr]) (by simp [RValue.ro]) hnew
    simp only [GoVal.kind, GoType.typeOf_zero] at hd
    have hK : (RValue.addr floc false false).Kind h = .Ptr := by
      simp [RValue.Kind, RValue.load, hnil, GoVal.kind, GoVal.typeOf, GoType.kind]
    have hTy : ((RValue.addr floc false false).Type h).bind GoType.Elem = some E := by
      simp [RValue.Type, RValue.load, hnil, GoVal.typeOf, GoType.Elem]
    unfold structIndex.switch
    rw [hK]
    simp only [hT, RValue.IsNil, RValue.load, hnil, RValue.IsValid, RValue.CanSet,
      RValue.CanAddr, RValue.ro, hI, hTy, hset, hd]
    simp
  · intro l hap hl
    rw [hfr l hap, Heap.read_append h _ l hl]

/-- The switch on a nil pointer field that is not settable, under
TransparentPointers: the handler raises and the heap is as it was. -/
theorem structIndex.switch_nil_unsettable (field : RValue) (opts : ReflectOptions) (key : String)
    (h : Heap) (E : GoType) (hT : opts.TransparentPointers = true)
    (hnil : field.load h = some (.ptr E none)) (hns : field.CanSet = false) :
    structIndex.switch field opts key h =
      (.raise ("cannot transparently create pointer field " ++ key), h) := by
  have hK : field.Kind h = .Ptr := by
    simp [RValue.Kind, hnil, GoVal.kind, GoVal.typeOf, GoType.kind]
  unfold structIndex.switch
  rw [hK]
  simp [hT, RValue.IsNil, hnil, hns]

/-- The switch on a nil pointer field that is settable, under
TransparentPointers and Immutable: nothing is stored and nil is returned. -/
theorem structIndex.switch_nil_immutable (field : RValue) (opts : ReflectOptions) (key : String)
    (h : Heap) (E : GoType) (hT : opts.TransparentPointers = true)
    (hI : opts.Immutable = true)
    (hnil : field.load h = some (.ptr E none)) (hs : field.CanSet = true) :
    structIndex.switch field opts key h = (.ret (some .nil), h) := by
  have hK : field.Kind h = .Ptr := by
    simp [RValue.Kind, hnil, GoVal.kind, GoVal.typeOf, GoType.kind]
  have hro : field.ro = false := by
    simp only [RValue.CanSet, Bool.and_eq_true, Bool.not_eq_true'] at hs
    exact hs.2
  unfold structIndex.switch
  rw [hK]
  simp [hT, RValue.IsNil, hnil, hs, hI, structIndex.deref_nil field opts h E hnil hro]

theorem RValue.canInterface_of_ro (field : RValue) (h : Heap) (x : GoVal)
    (hl : field.load h = some x) (hro : field.ro = false) : field.CanInterface = .ok true := by
  cases field with
  | invalid => simp [RValue.load] at hl
  | direct y s e => simp [RValue.CanInterface, hro]
  | addr l s e => simp [RValue.CanInterface, hro]

/-! ## The claims, continued -/

/-- C4, amended: on a struct proxy in pointer form, with TransparentPointers
and AutoPopulate set and Immutable unset, structIndex on a key that resolves
(no pointer-receiver method of that name) to a settable nil pointer field does
not raise; it allocates a fresh cell holding the zero value of the pointed-to
type and stores a pointer to it in the field, every location apart from the
field reading as before.  When the pointed-to type is not of struct or array
kind it returns that zero value wrapped with the options of the parent; when
it is, it returns a proxy, with the options of the parent, over the pointer to
the fresh cell. -/
theorem C4_structIndex_autopopulate (ref : RValue) (opts : ReflectOptions) (mt : Metatable)
    (key : String) (h : Heap) (index : List Nat) (floc : Loc) (E : GoType)
    (hT : opts.TransparentPointers = true) (_hA : opts.AutoPopulate = true)
    (hI : opts.Immutable = false)
    (hp : mt.ptrMethod key = none) (hf : mt.fieldIndex key = some index)
    (hfld : (Indirect ref h).FieldByIndex index h = .ok (.addr floc false false))
    (hnil : h.read floc = some (.ptr E none)) :
    ∃ h1, structIndex ref opts mt true key h =
        (.ret (some (if E.kind = .Struct ∨ E.kind = .Array
          then .userdata (.ptr E (some ⟨h.length, []⟩)) opts else New E.zero opts)), h1) ∧
      h.read ⟨h.length, []⟩ = none ∧
      h1.read floc = some (.ptr E (some ⟨h.length, []⟩)) ∧
      h1.read ⟨h.length, []⟩ = some E.zero ∧
      ∀ l : Loc, floc.apart l = true → l.cell < h.length → h1.read l = h.read l := by
  obtain ⟨h1, _, hsw, hr, hnew, hfr⟩ := structIndex.switch_populate floc opts key h E hT hI hnil
  refine ⟨h1, ?_, by simp [Heap.read], hr, hnew, hfr⟩
  rw [structIndex_field ref opts mt true key h index _ (Or.inl rfl) hp hf hfld rfl]
  exact hsw

theorem C4_structIndex_autopopulate_witness :
    ∃ h1, structIndex (ValueOf (.ptr (.struct tB) (some ⟨0, []⟩))) optsTPAuto mtB true "Str" hB =
        (.ret (some (if GoType.string.kind = .Struct ∨ GoType.string.kind = .Array
          then .userdata (.ptr .string (some ⟨hB.length, []⟩)) optsTPAuto
          else New GoType.string.zero optsTPAuto)), h1) ∧
      hB.read ⟨hB.length, []⟩ = none ∧
      h1.read ⟨0, [0]⟩ = some (.ptr .string (some ⟨hB.length, []⟩)) ∧
      h1.read ⟨hB.length, []⟩ = some GoType.string.zero ∧
      ∀ l : Loc, Loc.apart ⟨0, [0]⟩ l = true → l.cell < hB.length → h1.read l = hB.read l :=
  C4_structIndex_autopopulate (ValueOf (.ptr (.struct tB) (some ⟨0, []⟩))) optsTPAuto mtB "Str" hB
    [0] ⟨0, [0]⟩ .string rfl rfl rfl (by decide) (by decide) (by decide) (by decide)

/-- C4, as stated, fails: in Test_struct_transparentptr_autopop the nil
pointer field B of a TestTransparentPtrAccessA points to a struct; structIndex
allocates the zero struct in cell 1 and returns a proxy over the pointer to
that cell, not the wrap of the zero struct. -/
theorem C4_counterexample :
    hA.read ⟨0, [0]⟩ = some (.ptr (.struct tB) none) ∧
    (Indirect (ValueOf (.ptr (.struct tA) (some ⟨0, []⟩))) hA).FieldByIndex [0] hA =
      .ok (.addr ⟨0, [0]⟩ false false) ∧
    structIndex (ValueOf (.ptr (.struct tA) (some ⟨0, []⟩))) optsTPAuto mtA true "B" hA =
      (.ret (some (.userdata (.ptr (.struct tB) (some ⟨1, []⟩)) optsTPAuto)),
        [.struct tA (.cons (.ptr (.struct tB) (some ⟨1, []⟩)) .nil), GoType.zero (.struct tB)]) ∧
    (structIndex (ValueOf (.ptr (.struct tA) (some ⟨0, []⟩))) optsTPAuto mtA true "B" hA).1 ≠
      .ret (some (New (GoType.zero (.struct tB)) optsTPAuto)) := by
  decide

/-- C5, the code at the input of Test_struct_immutable_nonautopop (pointer
form, TransparentPointers alone): reading Ptr allocates an int, stores the
pointer in the field and returns 0; reading List stores an empty slice of
capacity 10 in the field and returns a proxy over it.  Neither read returns
nil and both edit the struct: AutoPopulate is not consulted. -/
theorem C5_structIndex_populates_without_AutoPopulate :
    structIndex (ValueOf (.ptr (.struct tX) (some ⟨0, []⟩))) optsTP mtX true "Ptr" hX =
      (.ret (some (.number 0)),
        [.struct tX (.cons (.ptr .int (some ⟨1, []⟩)) (.cons (.slice .int none) .nil)),
         .int 0]) ∧
    structIndex (ValueOf (.ptr (.struct tX) (some ⟨0, []⟩))) optsTP mtX true "List" hX =
      (.ret (some (.userdata (.slice .int (some ⟨1, 0, 10⟩)) optsTP)),
        [.struct tX (.cons (.ptr .int none) (.cons (.slice .int (some ⟨1, 0, 10⟩)) .nil)),
         .array .int (Vals.replicate 10 (.int 0))]) := by
  decide

/-- C6: on a struct proxy wrapped by value, with TransparentPointers set,
structIndex on a key that resolves (no method of that name) to a nil pointer
field that is not settable raises "cannot transparently create pointer field
<key>", and the heap is unchanged. -/
theorem C6_structIndex_byvalue_nil_pointer (sv : GoVal) (opts : ReflectOptions) (mt : Metatable)
    (key : String) (h : Heap) (index : List Nat) (field : RValue) (E : GoType)
    (hT : opts.TransparentPointers = true)
    (hm : mt.method key = none) (hp : mt.ptrMethod key = none)
    (hf : mt.fieldIndex key = some index)
    (hfld : (Indirect (ValueOf sv) h).FieldByIndex index h = .ok field)
    (hro : field.ro = false) (hns : field.CanSet = false)
    (hnil : field.load h = some (.ptr E none)) :
    structIndex (ValueOf sv) opts mt false key h =
      (.raise ("cannot transparently create pointer field " ++ key), h) := by
  rw [structIndex_field (ValueOf sv) opts mt false key h index field (Or.inr hm) hp hf hfld
    (RValue.canInterface_of_ro field h _ hnil hro)]
  exact structIndex.switch_nil_unsettable field opts key h E hT hnil hns

theorem C6_structIndex_byvalue_nil_pointer_witness :
    structIndex (ValueOf (GoType.zero (.struct tB))) optsTP mtB false "Str" [] =
      (.raise ("cannot transparently create pointer field " ++ "Str"), []) :=
  C6_structIndex_byvalue_nil_pointer (GoType.zero (.struct tB)) optsTP mtB "Str" [] [0]
    (.direct (.ptr .string none) false false) .string rfl (by decide) (by decide) (by decide)
    (by decide) rfl rfl rfl

/-- C7, amended: under TransparentPointers, when structIndex resolves a key
(no method of that name is consulted first) to a nil pointer field, then if
the field is settable and Immutable is set it returns nil without raising, and
if the field is not settable (the struct is not addressable) it raises "cannot
transparently create pointer field <key>"; the heap is unchanged in both
cases. -/
theorem C7_structIndex_nil_pointer (ref : RValue) (opts : ReflectOptions) (mt : Metatable)
    (isPtr : Bool) (key : String) (h : Heap) (index : List Nat) (field : RValue) (E : GoType)
    (hT : opts.TransparentPointers = true)
    (hm : isPtr = true ∨ mt.method key = none) (hp : mt.ptrMethod key = none)
    (hf : mt.fieldIndex key = some index)
    (hfld : (Indirect ref h).FieldByIndex index h = .ok field)
    (hro : field.ro = false)
    (hnil : field.load h = some (.ptr E none)) :
    (field.CanSet = true → opts.Immutable = true →
      structIndex ref opts mt isPtr key h = (.ret (some .nil), h)) ∧
    (field.CanSet = false →
      structIndex ref opts mt isPtr key h =
        (.raise ("cannot transparently create pointer field " ++ key), h)) := by
  have hsw := structIndex_field ref opts mt isPtr key h index field hm hp hf hfld
    (RValue.canInterface_of_ro field h _ hnil hro)
  constructor
  · intro hs hI
    rw [hsw]
    exact structIndex.switch_nil_immutable field opts key h E hT hI hnil hs
  · intro hns
    rw [hsw]
    exact structIndex.switch_nil_unsettable field opts key h E hT hnil hns

theorem C7_structIndex_nil_pointer_witness :
    structIndex (ValueOf (.ptr (.struct tX) (some ⟨0, []⟩))) ⟨true, true, false⟩ mtX true "Ptr" hX =
      (.ret (some .nil), hX) :=
  (C7_structIndex_nil_pointer (ValueOf (.ptr (.struct tX) (some ⟨0, []⟩))) ⟨true, true, false⟩
    mtX true "Ptr" hX [0] (.addr ⟨0, [0]⟩ false false) .int rfl (Or.inl rfl) (by decide)
    (by decide) (by decide) rfl (by decide)).1 rfl rfl

/-- C7, as stated, fails: the zero `x` of Test_struct_immutable_nonautopop
wrapped by value is not addressable, and under TransparentPointers the read of
its nil pointer field Ptr raises instead of returning nil. -/
theorem C7_counterexample :
    (Indirect (ValueOf (GoType.zero (.struct tX))) []).FieldByIndex [0] [] =
      .ok (.direct (.ptr .int none) false false) ∧
    RValue.CanAddr (.direct (.ptr .int none) false false) = false ∧
    structIndex (ValueOf (GoType.zero (.struct tX))) optsTP mtX false "Ptr" [] =
      (.raise "cannot transparently create pointer field Ptr", []) ∧
    (structIndex (ValueOf (GoType.zero (.struct tX))) optsTP mtX false "Ptr" []).1 ≠
      .ret (some .nil) := by
  decide

theorem Loc.apart_of_cell_ne (a b : Loc) (hc : a.cell ≠ b.cell) : a.apart b = true := by
  simp [Loc.apart, hc]

/-- The transparent-pointer assignment of structNewIndex (struct.go lines
99-117) when the converter yields a value of the element type: the value is
copied to a fresh cell and the field is set to point to it. -/
theorem structNewIndex_pointer_field (conv : Converter) (ref : RValue) (opts : ReflectOptions)
    (mt : Metatable) (isPtr : Bool) (key : String) (value : LValue) (h : Heap)
    (sref : RValue) (index : List Nat) (floc : Loc) (E : GoType) (old : Option Loc)
    (gv : RValue) (cells : List GoVal) (x : GoVal)
    (hT : opts.TransparentPointers = true) (hI : opts.Immutable = false)
    (href : (if isPtr then ref.Elem h else .ok ref) = .ok sref)
    (hf : mt.fieldIndex key = some index)
    (hfld : sref.FieldByIndex index h = .ok (.addr floc false false))
    (hold : h.read floc = some (.ptr E old))
    (hconv : conv value E h = .ok (gv, cells))
    (hgro : gv.ro = false) (hx : gv.load (h ++ cells) = some x) (hxt : x.typeOf = E)
    (hsrc : ∀ l s e, gv = .addr l s e → floc.apart l = true) :
    ∃ h2, structNewIndex conv ref opts mt isPtr key value h = (.ret none, h2) ∧
      h2.read floc = some (.ptr E (some ⟨(h ++ cells).length, []⟩)) ∧
      h2.read ⟨(h ++ cells).length, []⟩ = some x ∧
      (∀ l : Loc, floc.apart l = true → l.cell < (h ++ cells).length →
        h2.read l = Heap.read (h ++ cells) l) ∧
      ∃ h1, Heap.write ((h ++ cells) ++ [E.zero]) floc
          (.ptr E (some ⟨(h ++ cells).length, []⟩)) = some h1 ∧
        ∀ l : Loc, l.cell ≠ (h ++ cells).length → h2.read l = h1.read l := by
  have hlt : floc.cell < h.length := Heap.read_lt h floc _ hold
  have hltc : floc.cell < (h ++ cells).length := by
    rw [List.length_append]; exact Nat.lt_of_lt_of_le hlt (Nat.le_add_right _ _)
  have holdc : Heap.read (h ++ cells) floc = some (.ptr E old) := by
    rw [Heap.read_append _ _ floc hlt]; exact hold
  have hstep : ∀ hc : Heap, hc = h ++ cells →
      structNewIndex conv ref opts mt isPtr key value h =
        match (RValue.addr floc false false).Set (reflectNew E hc).1 (reflectNew E hc).2 with
        | .error e => (.panic e, (reflectNew E hc).2)
        | .ok h1 =>
          match (RValue.addr floc false false).Elem h1 with
          | .error e => (.panic e, h1)
          | .ok el =>
            match el.Set gv h1 with
            | .error e => (.panic e, h1)
            | .ok h2 => (.ret none, h2) := by
    intro hc hhc
    have hTy : (RValue.addr floc false false).Type h = some (.ptr E) := by
      simp [RValue.Type, RValue.load, hold, GoVal.typeOf]
    have hgT : gv.Type (h ++ cells) = some E := by simp [RValue.Type, hx, hxt]
    subst hhc
    unfold structNewIndex
    simp [hI, href, hf, hfld, hTy, hT, GoType.kind, GoType.Elem, hconv, RValue.CanSet,
      RValue.CanAddr, RValue.ro, hgT]
  generalize hhc : h ++ cells = hc at hltc holdc hx hstep ⊢
  have hstep1 := hstep hc rfl
  clear hstep
  have hne : floc.cell ≠ hc.length := Nat.ne_of_lt hltc
  have holdz : Heap.read (hc ++ [E.zero]) floc = some (.ptr E old) := by
    rw [Heap.read_append _ _ floc hltc]; exact holdc
  obtain ⟨h1, hw1, hr1, _, hfr1⟩ := Heap.write_of_read (hc ++ [E.zero]) floc _
    (.ptr E (some ⟨hc.length, []⟩)) holdz
  have hz1 : h1.read ⟨hc.length, []⟩ = some E.zero := by
    rw [hfr1 _ (Loc.apart_of_cell_ne _ _ hne)]; exact Heap.read_append_new _ _
  have hx1 : gv.load h1 = some x := by
    cases gv with
    | invalid => simp [RValue.load] at hx
    | direct y s e => simpa [RValue.load] using hx
    | addr l s e =>
      simp only [RValue.load] at hx ⊢
      rw [hfr1 l (hsrc l s e rfl), Heap.read_append _ _ l (Heap.read_lt _ l _ hx)]
      exact hx
  obtain ⟨h2, hw2, hr2, _, hfr2⟩ := Heap.write_of_read h1 ⟨hc.length, []⟩ _ x hz1
  have hap2 : ∀ l : Loc, l.cell ≠ hc.length → Loc.apart ⟨hc.length, []⟩ l = true :=
    fun l hl => Loc.apart_of_cell_ne _ _ (fun hc => hl hc.symm)
  refine ⟨h2, ?_, ?_, hr2, ?_, h1, hw1, fun l hl => hfr2 l (hap2 l hl)⟩
  · have hset1 : (RValue.addr floc false false).Set (reflectNew E hc).1 (reflectNew E hc).2 =
        .ok h1 := by
      simp only [RValue.Set, reflectNew, RValue.ro, RValue.load, holdz, GoVal.typeOf, hw1]
      simp
    have hel : (RValue.addr floc false false).Elem h1 =
        .ok (.addr ⟨hc.length, []⟩ false false) := by
      simp only [RValue.Elem, RValue.load, hr1]
    have hset2 : (RValue.addr ⟨hc.length, []⟩ false false).Set gv h1 = .ok h2 := by
      simp only [RValue.Set, hgro, hz1, hx1, hxt, GoType.typeOf_zero, hw2]
      simp
    rw [hstep1, hset1]
    simp only [hel, hset2]
  · rw [hfr2 floc (hap2 floc hne)]; exact hr1
  · intro l hap hl
    rw [hfr2 l (hap2 l (Nat.ne_of_lt hl)), hfr1 l hap, Heap.read_append _ _ l hl]

/-- The direct assignment of structNewIndex (struct.go lines 119-122) when the
converter yields a value of the type of the field: the value is stored in the
field. -/
theorem structNewIndex_plain_field (conv : Converter) (ref : RValue) (opts : ReflectOptions)
    (mt : Metatable) (isPtr : Bool) (key : String) (value : LValue) (h : Heap)
    (sref : RValue) (index : List Nat) (floc : Loc) (oldv : GoVal)
    (gv : RValue) (cells : List GoVal) (x : GoVal)
    (hI : opts.Immutable = false)
    (href : (if isPtr then ref.Elem h else .ok ref) = .ok sref)
    (hf : mt.fieldIndex key = some index)
    (hfld : sref.FieldByIndex index h = .ok (.addr floc false false))
    (hold : h.read floc = some oldv)
    (hk : oldv.typeOf.kind ≠ .Ptr ∨ opts.TransparentPointers = false)
    (hconv : conv value oldv.typeOf h = .ok (gv, cells))
    (hgro : gv.ro = false) (hx : gv.load (h ++ cells) = some x)
    (hxt : x.typeOf = oldv.typeOf) :
    ∃ h1, structNewIndex conv ref opts mt isPtr key value h = (.ret none, h1) ∧
      h1.read floc = some x ∧
      (∀ l : Loc, floc.apart l = true → l.cell < h.length → h1.read l = h.read l) ∧
      Heap.write (h ++ cells) floc x = some h1 := by
  have hlt : floc.cell < h.length := Heap.read_lt h floc _ hold
  have holdc : Heap.read (h ++ cells) floc = some oldv := by
    rw [Heap.read_append _ _ floc hlt]; exact hold
  obtain ⟨h1, hw1, hr1, _, hfr1⟩ := Heap.write_of_read (h ++ cells) floc _ x holdc
  refine ⟨h1, ?_, hr1, ?_, hw1⟩
  · have hTy : (RValue.addr floc false false).Type h = some oldv.typeOf := by
      simp [RValue.Type, RValue.load, hold]
    have hif : (if opts.TransparentPointers && decide (oldv.typeOf.kind = .Ptr)
        then oldv.typeOf.Elem else none) = none := by
      rcases hk with hk | hk
      · simp [hk]
      · simp [hk]
    have hset : (RValue.addr floc false false).Set gv (h ++ cells) = .ok h1 := by
      simp only [RValue.Set, hgro, holdc, hx, hxt, hw1]
      simp
    unfold structNewIndex
    simp only [hI, href, hf, hfld, hTy, hif, hconv, RValue.CanSet, RValue.CanAddr, RValue.ro,
      hset]
    simp
  · intro l hap hl
    rw [hfr1 l hap, Heap.read_append _ _ l hl]

/-- C8: on a settable field of pointer type, with TransparentPointers set and
Immutable unset, when the converter, called with the element type of the
field, yields a value of that type (one not held in the assigned field
itself), structNewIndex succeeds: it copies the converted value to a cell that
did not exist before and stores a pointer to that cell in the field.  Nothing
is written through the pointer the field held: every location of the old heap
apart from the field reads as before, in particular what the field pointed to
and what the right-hand side was read from.  The two sides do not alias: a
later write outside the new cell is not seen through the field, and a later
write to the new cell is seen nowhere else. -/
theorem C8_structNewIndex_transparent_copy (conv : Converter) (ref : RValue)
    (opts : ReflectOptions) (mt : Metatable) (isPtr : Bool) (key : String) (value : LValue)
    (h : Heap) (sref : RValue) (index : List Nat) (floc : Loc) (E : GoType) (old : Option Loc)
    (gv : RValue) (cells : List GoVal) (x : GoVal)
    (hT : opts.TransparentPointers = true) (hI : opts.Immutable = false)
    (href : (if isPtr then ref.Elem h else .ok ref) = .ok sref)
    (hf : mt.fieldIndex key = some index)
    (hfld : sref.FieldByIndex index h = .ok (.addr floc false false))
    (hold : h.read floc = some (.ptr E old))
    (hconv : conv value E h = .ok (gv, cells))
    (hgro : gv.ro = false) (hx : gv.load (h ++ cells) = some x) (hxt : x.typeOf = E)
    (hsrc : ∀ l s e, gv = .addr l s e → floc.apart l = true) :
    ∃ h2, structNewIndex conv ref opts mt isPtr key value h = (.ret none, h2) ∧
      h.read ⟨(h ++ cells).length, []⟩ = none ∧
      h2.read floc = some (.ptr E (some ⟨(h ++ cells).length, []⟩)) ∧
      h2.read ⟨(h ++ cells).length, []⟩ = some x ∧
      (∀ l : Loc, floc.apart l = true → l.cell < h.length → h2.read l = h.read l) ∧
      (∀ ol pv, old = some ol → floc.apart ol = true → h.read ol = some pv →
        h2.read ol = some pv) ∧
      (∀ l s e, gv = .addr l s e → h2.read l = some x) ∧
      (∀ l ov v, l.cell ≠ (h ++ cells).length → h2.read l = some ov →
        ∃ h3, h2.write l v = some h3 ∧ h3.read ⟨(h ++ cells).length, []⟩ = some x) ∧
      (∀ v, ∃ h3, h2.write ⟨(h ++ cells).length, []⟩ v = some h3 ∧
        ∀ l : Loc, l.cell ≠ (h ++ cells).length → h3.read l = h2.read l) := by
  obtain ⟨h2, hres, hrf, hrn, hfr, _⟩ := structNewIndex_pointer_field conv ref opts mt isPtr key
    value h sref index floc E old gv cells x hT hI href hf hfld hold hconv hgro hx hxt hsrc
  have hle : h.length ≤ (h ++ cells).length := by
    rw [List.length_append]; exact Nat.le_add_right _ _
  have hfrh : ∀ l : Loc, floc.apart l = true → l.cell < h.length → h2.read l = h.read l := by
    intro l hap hl
    rw [hfr l hap (Nat.lt_of_lt_of_le hl hle), Heap.read_append _ _ l hl]
  refine ⟨h2, hres, ?_, hrf, hrn, hfrh, ?_, ?_, ?_, ?_⟩
  · have hnone : h[(h ++ cells).length]? = none := List.getElem?_eq_none hle
    simp only [Heap.read, hnone]
  · intro ol pv _ hap hpv
    rw [hfrh ol hap (Heap.read_lt h ol pv hpv)]; exact hpv
  · intro l s e hg
    subst hg
    simp only [RValue.load] at hx
    rw [hfr l (hsrc l s e rfl) (Heap.read_lt _ l x hx)]; exact hx
  · intro l ov v hl hov
    obtain ⟨h3, hw3, _, _, hfr3⟩ := Heap.write_of_read h2 l ov v hov
    exact ⟨h3, hw3, by rw [hfr3 _ (Loc.apart_of_cell_ne _ _ hl)]; exact hrn⟩
  · intro v
    obtain ⟨h3, hw3, _, _, hfr3⟩ := Heap.write_of_read h2 ⟨(h ++ cells).length, []⟩ x v hrn
    exact ⟨h3, hw3, fun l hl => hfr3 l (Loc.apart_of_cell_ne _ _ (fun hc => hl hc.symm))⟩

theorem C8_structNewIndex_transparent_copy_witness :
    ∃ h2, structNewIndex convBasic (ValueOf (.ptr (.struct tA) (some ⟨2, []⟩))) optsTP mtA true "B"
        (.userdata vB optsTP) hVar = (.ret none, h2) ∧
      h2.read ⟨2, [0]⟩ = some (.ptr (.struct tB) (some ⟨3, []⟩)) ∧
      h2.read ⟨3, []⟩ = some vB ∧
      h2.read ⟨1, []⟩ = some vB :=
  let ⟨h2, hres, _, hf, hn, hfr, _⟩ :=
    C8_structNewIndex_transparent_copy convBasic (ValueOf (.ptr (.struct tA) (some ⟨2, []⟩)))
      optsTP mtA true "B" (.userdata vB optsTP) hVar (.addr ⟨2, []⟩ false false) [0] ⟨2, [0]⟩
      (.struct tB) none (ValueOf vB) [] vB rfl rfl (by decide) (by decide) (by decide)
      (by decide) (by decide) rfl (by decide) rfl
      (by intro l s e hc; exact absurd hc (by simp [ValueOf]))
  ⟨h2, hres, hf, hn, by rw [hfr ⟨1, []⟩ (by decide) (by decide)]; decide⟩

/-- The switch on a field that is neither a pointer nor a slice goes straight
to the end of the handler. -/
theorem structIndex.switch_other (field : RValue) (opts : ReflectOptions) (key : String)
    (h : Heap) (x : GoVal) (hl : field.load h = some x)
    (hk : x.kind ≠ .Ptr ∧ x.kind ≠ .Slice) :
    structIndex.switch field opts key h = structIndex.push field opts h := by
  have hK : field.Kind h = x.kind := by simp [RValue.Kind, hl]
  unfold structIndex.switch
  rw [hK]
  split
  · rename_i hc; exact absurd hc hk.1
  · rename_i hc; exact absurd hc hk.2
  · rfl

/-- The switch on a pointer field that is not nil, under TransparentPointers,
is the dereference step. -/
theorem structIndex.switch_pointer (field : RValue) (opts : ReflectOptions) (key : String)
    (h : Heap) (E : GoType) (tl : Loc) (hT : opts.TransparentPointers = true)
    (hl : field.load h = some (.ptr E (some tl))) :
    structIndex.switch field opts key h = structIndex.deref field opts h := by
  have hK : field.Kind h = .Ptr := by
    simp [RValue.Kind, hl, GoVal.kind, GoVal.typeOf, GoType.kind]
  have hv : field.IsValid = true := by
    cases field with
    | invalid => simp [RValue.load] at hl
    | direct y s e => rfl
    | addr l s e => rfl
  unfold structIndex.switch
  rw [hK]
  simp [hT, RValue.IsNil, hl, hv]

/-! ## Lemmas on the resolution of an index path -/

theorem sameRoute_refl (a : GoVal) : sameRoute a a := by
  refine ⟨rfl, ?_, fun _ _ _ => rfl⟩
  intro d fs d1 fs1 h1 h2 j
  rw [h1] at h2
  cases h2
  rfl

theorem Vals.length_set : ∀ (vs : Vals) (i : Nat) (x : GoVal), (vs.set i x).length = vs.length
  | .nil, _, _ => rfl
  | .cons _ _, 0, _ => rfl
  | .cons _ rest, i + 1, x => by
    simp only [Vals.set, Vals.length]
    rw [Vals.length_set rest i x]

theorem Vals.isSome_get?_set (vs : Vals) (i j : Nat) (f x : GoVal) (hf : vs.get? i = some f) :
    (vs.get? j).isSome = ((vs.set i x).get? j).isSome := by
  by_cases hij : i = j
  · subst hij
    rw [Vals.get?_set_eq vs i f x hf, hf]
    rfl
  · rw [Vals.get?_set_ne vs i j x hij]

/-- A value without parts: neither a struct nor an array. -/
theorem readPath_cons_none (v : GoVal) (hk : v.kind ≠ .Struct ∧ v.kind ≠ .Array) (j : Nat)
    (q : List Nat) : readPath v (j :: q) = none := by
  cases v with
  | struct d fs => simp [GoVal.kind, GoVal.typeOf, GoType.kind] at hk
  | array t es => simp [GoVal.kind, GoVal.typeOf, GoType.kind] at hk
  | bool b => rfl
  | int b => rfl
  | str b => rfl
  | ptr a b => rfl
  | slice a b => rfl

/-- After a value without parts is replaced by one that routes alike, whatever
could be read along any path can still be read, and routes alike. -/
theorem readPath_writePath_route (v : GoVal) (p : List Nat) (oldv x v1 : GoVal)
    (hr : readPath v p = some oldv) (hw : writePath v p x = some v1)
    (hk : oldv.kind ≠ .Struct ∧ oldv.kind ≠ .Array) (hR : sameRoute oldv x)
    (q : List Nat) (u : GoVal) (hu : readPath v q = some u) :
    ∃ u1, readPath v1 q = some u1 ∧ sameRoute u u1 := by
  induction p generalizing v v1 q u with
  | nil =>
    simp only [readPath, Option.some.injEq] at hr
    simp only [writePath, Option.some.injEq] at hw
    subst hr hw
    cases q with
    | nil =>
      simp only [readPath, Option.some.injEq] at hu
      subst hu
      exact ⟨_, by simp [readPath], hR⟩
    | cons j q => rw [readPath_cons_none v hk j q] at hu; cases hu
  | cons i p ih =>
    cases v with
    | struct d fs =>
      simp only [readPath] at hr
      simp only [writePath] at hw
      cases hf : fs.get? i with
      | none => simp [hf] at hr
      | some f =>
        simp only [hf] at hr hw
        cases hw1 : writePath f p x with
        | none => simp [hw1] at hw
        | some f1 =>
          simp only [hw1, Option.some.injEq] at hw
          subst hw
          cases q with
          | nil =>
            simp only [readPath, Option.some.injEq] at hu
            subst hu
            refine ⟨_, rfl, rfl, ?_, ?_⟩
            · intro d0 fs0 d1 fs1 h0 h1 j
              cases h0
              cases h1
              exact Vals.isSome_get?_set fs i j f f1 hf
            · intro t tgt hc
              cases hc
          | cons j q =>
            by_cases hij : i = j
            · subst hij
              simp only [readPath, hf] at hu
              simp only [readPath, Vals.get?_set_eq fs i f f1 hf]
              exact ih f f1 hr hw1 q u hu
            · refine ⟨u, ?_, sameRoute_refl u⟩
              simp only [readPath, Vals.get?_set_ne fs i j f1 hij]
              simpa only [readPath] using hu
    | array t es =>
      simp only [readPath] at hr
      simp only [writePath] at hw
      cases hf : es.get? i with
      | none => simp [hf] at hr
      | some f =>
        simp only [hf] at hr hw
        cases hw1 : writePath f p x with
        | none => simp [hw1] at hw
        | some f1 =>
          simp only [hw1, Option.some.injEq] at hw
          subst hw
          cases q with
          | nil =>
            simp only [readPath, Option.some.injEq] at hu
            subst hu
            refine ⟨_, rfl, ?_, ?_, ?_⟩
            · simp [GoVal.typeOf, Vals.length_set]
            · intro d0 fs0 d1 fs1 h0 h1 j
              cases h0
            · intro t tgt hc
              cases hc
          | cons j q =>
            by_cases hij : i = j
            · subst hij
              simp only [readPath, hf] at hu
              simp only [readPath, Vals.get?_set_eq es i f f1 hf]
              exact ih f f1 hr hw1 q u hu
            · refine ⟨u, ?_, sameRoute_refl u⟩
              simp only [readPath, Vals.get?_set_ne es i j f1 hij]
              simpa only [readPath] using hu
    | bool b => simp [readPath] at hr
    | int b => simp [readPath] at hr
    | str b => simp [readPath] at hr
    | ptr a b => simp [readPath] at hr
    | slice a b => simp [readPath] at hr

theorem Heap.routesInto_write (h h1 : Heap) (floc : Loc) (oldv x : GoVal)
    (hr : h.read floc = some oldv) (hw : h.write floc x = some h1)
    (hk : oldv.kind ≠ .Struct ∧ oldv.kind ≠ .Array) (hR : sameRoute oldv x) :
    h.routesInto h1 := by
  intro l u hu
  have hlt := Heap.read_lt h floc oldv hr
  unfold Heap.read at hr
  unfold Heap.write at hw
  cases hg : h[floc.cell]? with
  | none => simp [hg] at hr
  | some c =>
    simp only [hg] at hr hw
    cases hwc : writePath c floc.path x with
    | none => simp [hwc] at hw
    | some c1 =>
      simp only [hwc, Option.some.injEq] at hw
      subst hw
      by_cases hc : floc.cell = l.cell
      · have hu1 : readPath c l.path = some u := by
          simp only [Heap.read, ← hc, hg] at hu
          exact hu
        obtain ⟨u1, hr1, hs⟩ := readPath_writePath_route c floc.path oldv x c1 hr hwc hk hR
          l.path u hu1
        refine ⟨u1, ?_, hs⟩
        simp only [Heap.read, ← hc, List.getElem?_set_self hlt]
        exact hr1
      · refine ⟨u, ?_, sameRoute_refl u⟩
        simp only [Heap.read, List.getElem?_set_ne hc]
        simpa only [Heap.read] using hu

theorem Heap.routesInto_append (h cells : Heap) : h.routesInto (h ++ cells) := by
  intro l u hu
  exact ⟨u, by rw [Heap.read_append h cells l (Heap.read_lt h l u hu)]; exact hu,
    sameRoute_refl u⟩

theorem Heap.routesInto_trans (h h1 h2 : Heap) (h12 : h.routesInto h1)
    (h23 : h1.routesInto h2) : h.routesInto h2 := by
  intro l u hu
  obtain ⟨u1, hr1, hs1⟩ := h12 l u hu
  obtain ⟨u2, hr2, hs2⟩ := h23 l u1 hr1
  refine ⟨u2, hr2, hs1.1.trans hs2.1, ?_, ?_⟩
  · intro d fs d2 fs2 ha hb j
    subst ha hb
    have ht := hs1.1
    cases u1 with
    | struct d1 fs1 =>
      rw [hs1.2.1 d fs d1 fs1 rfl rfl j, hs2.2.1 d1 fs1 d2 fs2 rfl rfl j]
    | bool b => simp [GoVal.typeOf] at ht
    | int b => simp [GoVal.typeOf] at ht
    | str b => simp [GoVal.typeOf] at ht
    | ptr a b => simp [GoVal.typeOf] at ht
    | slice a b => simp [GoVal.typeOf] at ht
    | array a b => simp [GoVal.typeOf] at ht
  · intro t tgt ha
    have h1a := hs1.2.2 t tgt ha
    rw [h1a] at hs2
    rw [hs2.2.2 t tgt ha, ha]

theorem RValue.load_route (v : RValue) (h h1 : Heap) (hrt : h.routesInto h1) (a : GoVal)
    (hl : v.load h = some a) : ∃ b, v.load h1 = some b ∧ sameRoute a b := by
  cases v with
  | invalid => simp [RValue.load] at hl
  | direct y s e => exact ⟨a, hl, sameRoute_refl a⟩
  | addr l s e => exact hrt l a hl

theorem sameRoute_struct (d : FieldTypes) (fs : Vals) (b : GoVal)
    (hs : sameRoute (.struct d fs) b) :
    ∃ fs1, b = .struct d fs1 ∧ ∀ j, (fs.get? j).isSome = (fs1.get? j).isSome := by
  have ht := hs.1
  cases b with
  | struct d1 fs1 =>
    simp only [GoVal.typeOf, GoType.struct.injEq] at ht
    subst ht
    exact ⟨fs1, rfl, hs.2.1 d fs d fs1 rfl rfl⟩
  | bool b => simp [GoVal.typeOf] at ht
  | int b => simp [GoVal.typeOf] at ht
  | str b => simp [GoVal.typeOf] at ht
  | ptr a b => simp [GoVal.typeOf] at ht
  | slice a b => simp [GoVal.typeOf] at ht
  | array a b => simp [GoVal.typeOf] at ht

theorem RValue.Field_route (v : RValue) (i : Nat) (h h1 : Heap) (hrt : h.routesInto h1)
    (f : RValue) (hf : v.Field i h = .ok f) : v.Field i h1 = .ok f := by
  cases v with
  | invalid => simp [RValue.Field, RValue.load] at hf
  | direct y s e => simpa [RValue.Field, RValue.load] using hf
  | addr l s e =>
    unfold RValue.Field at hf ⊢
    cases hl : (RValue.addr l s e).load h with
    | none => simp [hl] at hf
    | some a =>
      obtain ⟨b, hb, hs⟩ := RValue.load_route _ h h1 hrt a hl
      cases a with
      | struct d fs =>
        obtain ⟨fs1, hb1, hsome⟩ := sameRoute_struct d fs b hs
        subst hb1
        simp only [hl] at hf
        simp only [hb]
        cases hd : d.get? i with
        | none => simp [hd] at hf
        | some decl =>
          cases hg : fs.get? i with
          | none => simp [hd, hg] at hf
          | some f0 =>
            have h1s := hsome i
            rw [hg] at h1s
            cases hg1 : fs1.get? i with
            | none => rw [hg1] at h1s; simp at h1s
            | some f1 =>
              simp only [hd, hg] at hf
              simp only [hd, hg1]
              exact hf
      | bool b => simp [hl] at hf
      | int b => simp [hl] at hf
      | str b => simp [hl] at hf
      | ptr a b => simp [hl] at hf
      | slice a b => simp [hl] at hf
      | array a b => simp [hl] at hf

theorem RValue.Elem_route (v : RValue) (h h1 : Heap) (a : GoVal)
    (hl : v.load h = some a) (hl1 : v.load h1 = some a) : v.Elem h1 = v.Elem h := by
  unfold RValue.Elem
  rw [hl, hl1]

theorem RValue.fieldByIndexLoop_route (h h1 : Heap) (hrt : h.routesInto h1) :
    ∀ (index : List Nat) (v : RValue) (first : Bool) (r : RValue),
      RValue.fieldByIndexLoop v first h index = .ok r →
      RValue.fieldByIndexLoop v first h1 index = .ok r
  | [], v, first, r, hr => by simpa [RValue.fieldByIndexLoop] using hr
  | x :: rest, v, first, r, hr => by
    cases first with
    | true =>
      simp only [RValue.fieldByIndexLoop, if_true] at hr ⊢
      cases hf : v.Field x h with
      | error e => simp [hf] at hr
      | ok f =>
        simp only [hf] at hr
        simp only [RValue.Field_route v x h h1 hrt f hf]
        exact RValue.fieldByIndexLoop_route h h1 hrt rest f false r hr
    | false =>
      cases hl : v.load h with
      | none =>
        exfalso
        simp only [RValue.fieldByIndexLoop, hl] at hr
        simp [RValue.Field, hl] at hr
      | some a =>
        obtain ⟨b, hb, hs⟩ := RValue.load_route v h h1 hrt a hl
        have hstep : ∀ w : RValue,
            (match v.load h with
              | some (.ptr (.struct _) none) =>
                (.error "reflect: indirection through nil pointer to embedded struct" :
                  Except String RValue)
              | some (.ptr (.struct _) (some _)) => v.Elem h
              | _ => .ok v) = .ok w →
            (match v.load h1 with
              | some (.ptr (.struct _) none) =>
                (.error "reflect: indirection through nil pointer to embedded struct" :
                  Except String RValue)
              | some (.ptr (.struct _) (some _)) => v.Elem h1
              | _ => .ok v) = .ok w := by
          intro w hw
          by_cases hp : ∃ t tgt, a = .ptr (.struct t) tgt
          · obtain ⟨t, tgt, hp⟩ := hp
            have hba : b = a := hs.2.2 t tgt hp
            subst hba
            rw [hb]
            rw [hl] at hw
            subst hp
            cases tgt with
            | none => simp at hw
            | some l =>
              simp only at hw ⊢
              rw [RValue.Elem_route v h h1 _ hl hb]
              exact hw
          · have hnb : ¬ ∃ t tgt, b = .ptr (.struct t) tgt := by
              rintro ⟨t, tgt, hbp⟩
              have ht := hs.1
              rw [hbp] at ht
              cases a with
              | ptr e tg =>
                simp only [GoVal.typeOf, GoType.ptr.injEq] at ht
                exact hp ⟨t, tg, by rw [ht]⟩
              | bool b => simp [GoVal.typeOf] at ht
              | int b => simp [GoVal.typeOf] at ht
              | str b => simp [GoVal.typeOf] at ht
              | struct a b => simp [GoVal.typeOf] at ht
              | slice a b => simp [GoVal.typeOf] at ht
              | array a b => simp [GoVal.typeOf] at ht
            rw [hl] at hw
            rw [hb]
            have hwv : w = v := by
              split at hw
              · simp at hw
              · rename_i t l heq
                simp only [Option.some.injEq] at heq
                exact absurd ⟨_, _, heq⟩ hp
              · simp only [Except.ok.injEq] at hw
                exact hw.symm
            subst hwv
            split
            · rename_i t heq
              simp only [Option.some.injEq] at heq
              exact absurd ⟨_, _, heq⟩ hnb
            · rename_i t l heq
              simp only [Option.some.injEq] at heq
              exact absurd ⟨_, _, heq⟩ hnb
            · rfl
        simp only [RValue.fieldByIndexLoop, Bool.false_eq_true, if_false] at hr ⊢
        split at hr
        · cases hr
        · rename_i w hw
          rw [hstep w hw]
          simp only
          cases hf : w.Field x h with
          | error e => simp [hf] at hr
          | ok f =>
            simp only [hf] at hr
            simp only [RValue.Field_route w x h h1 hrt f hf]
            exact RValue.fieldByIndexLoop_route h h1 hrt rest f false r hr

/-- FieldByIndex resolves alike in a heap that routes alike. -/
theorem RValue.FieldByIndex_route (v : RValue) (index : List Nat) (h h1 : Heap)
    (hrt : h.routesInto h1) (r : RValue) (hr : v.FieldByIndex index h = .ok r) :
    v.FieldByIndex index h1 = .ok r := by
  unfold RValue.FieldByIndex at hr ⊢
  split
  · exact RValue.Field_route v _ h h1 hrt r (by simpa using hr)
  · rename_i hne
    split at hr
    · rename_i i; exact absurd rfl (hne i)
    · split at hr
      · rename_i hk
        have hk1 : v.Kind h1 = .Struct := by
          unfold RValue.Kind at hk ⊢
          cases hl : v.load h with
          | none => simp [hl] at hk
          | some a =>
            obtain ⟨b, hb, hs⟩ := RValue.load_route v h h1 hrt a hl
            simp only [hl] at hk
            simp only [hb, GoVal.kind, ← hs.1]
            exact hk
        simp only [hk1, if_true]
        exact RValue.fieldByIndexLoop_route h h1 hrt index v true r hr
      · cases hr

theorem RValue.FieldByIndex_kind (v : RValue) (index : List Nat) (h : Heap) (f : RValue)
    (hf : v.FieldByIndex index h = .ok f) : v.Kind h = .Struct := by
  unfold RValue.FieldByIndex at hf
  split at hf
  · unfold RValue.Field at hf
    unfold RValue.Kind
    split at hf
    · rename_i d fs hl
      rw [hl]
      rfl
    · cases hf
  · split at hf
    · assumption
    · cases hf

/-- After a value without parts is replaced, whatever could be read along any
other path can still be read, and routes alike. -/
theorem readPath_writePath_route_ne (v : GoVal) (p : List Nat) (oldv x v1 : GoVal)
    (hr : readPath v p = some oldv) (hw : writePath v p x = some v1)
    (hk : oldv.kind ≠ .Struct ∧ oldv.kind ≠ .Array)
    (q : List Nat) (hq : q ≠ p) (u : GoVal) (hu : readPath v q = some u) :
    ∃ u1, readPath v1 q = some u1 ∧ sameRoute u u1 := by
  induction p generalizing v v1 q u with
  | nil =>
    simp only [readPath, Option.some.injEq] at hr
    subst hr
    cases q with
    | nil => exact absurd rfl hq
    | cons j q => rw [readPath_cons_none v hk j q] at hu; cases hu
  | cons i p ih =>
    cases v with
    | struct d fs =>
      simp only [readPath] at hr
      simp only [writePath] at hw
      cases hf : fs.get? i with
      | none => simp [hf] at hr
      | some f =>
        simp only [hf] at hr hw
        cases hw1 : writePath f p x with
        | none => simp [hw1] at hw
        | some f1 =>
          simp only [hw1, Option.some.injEq] at hw
          subst hw
          cases q with
          | nil =>
            simp only [readPath, Option.some.injEq] at hu
            subst hu
            refine ⟨_, rfl, rfl, ?_, ?_⟩
            · intro d0 fs0 d1 fs1 h0 h1 j
              cases h0
              cases h1
              exact Vals.isSome_get?_set fs i j f f1 hf
            · intro t tgt hc
              cases hc
          | cons j q =>
            by_cases hij : i = j
            · subst hij
              simp only [readPath, hf] at hu
              simp only [readPath, Vals.get?_set_eq fs i f f1 hf]
              exact ih f f1 hr hw1 q (fun hc => hq (by rw [hc])) u hu
            · refine ⟨u, ?_, sameRoute_refl u⟩
              simp only [readPath, Vals.get?_set_ne fs i j f1 hij]
              simpa only [readPath] using hu
    | array t es =>
      simp only [readPath] at hr
      simp only [writePath] at hw
      cases hf : es.get? i with
      | none => simp [hf] at hr
      | some f =>
        simp only [hf] at hr hw
        cases hw1 : writePath f p x with
        | none => simp [hw1] at hw
        | some f1 =>
          simp only [hw1, Option.some.injEq] at hw
          subst hw
          cases q with
          | nil =>
            simp only [readPath, Option.some.injEq] at hu
            subst hu
            refine ⟨_, rfl, ?_, ?_, ?_⟩
            · simp [GoVal.typeOf, Vals.length_set]
            · intro d0 fs0 d1 fs1 h0 h1 j
              cases h0
            · intro t tgt hc
              cases hc
          | cons j q =>
            by_cases hij : i = j
            · subst hij
              simp only [readPath, hf] at hu
              simp only [readPath, Vals.get?_set_eq es i f f1 hf]
              exact ih f f1 hr hw1 q (fun hc => hq (by rw [hc])) u hu
            · refine ⟨u, ?_, sameRoute_refl u⟩
              simp only [readPath, Vals.get?_set_ne es i j f1 hij]
              simpa only [readPath] using hu
    | bool b => simp [readPath] at hr
    | int b => simp [readPath] at hr
    | str b => simp [readPath] at hr
    | ptr a b => simp [readPath] at hr
    | slice a b => simp [readPath] at hr

/-- After a write of a value without parts, every other location that could be
read can still be read, and routes alike. -/
theorem Heap.read_write_route_ne (h h1 : Heap) (floc : Loc) (oldv x : GoVal)
    (hr : h.read floc = some oldv) (hw : h.write floc x = some h1)
    (hk : oldv.kind ≠ .Struct ∧ oldv.kind ≠ .Array)
    (l : Loc) (hl : l ≠ floc) (u : GoVal) (hu : h.read l = some u) :
    ∃ u1, h1.read l = some u1 ∧ sameRoute u u1 := by
  have hlt := Heap.read_lt h floc oldv hr
  unfold Heap.read at hr
  unfold Heap.write at hw
  cases hg : h[floc.cell]? with
  | none => simp [hg] at hr
  | some c =>
    simp only [hg] at hr hw
    cases hwc : writePath c floc.path x with
    | none => simp [hwc] at hw
    | some c1 =>
      simp only [hwc, Option.some.injEq] at hw
      subst hw
      by_cases hc : floc.cell = l.cell
      · have hu1 : readPath c l.path = some u := by
          simp only [Heap.read, ← hc, hg] at hu
          exact hu
        have hpne : l.path ≠ floc.path := by
          intro hp
          apply hl
          cases l
          cases floc
          simp only [Loc.mk.injEq]
          exact ⟨hc.symm, hp⟩
        obtain ⟨u1, hr1, hs⟩ := readPath_writePath_route_ne c floc.path oldv x c1 hr hwc hk
          l.path hpne u hu1
        refine ⟨u1, ?_, hs⟩
        simp only [Heap.read, ← hc, List.getElem?_set_self hlt]
        exact hr1
      · refine ⟨u, ?_, sameRoute_refl u⟩
        simp only [Heap.read, List.getElem?_set_ne hc]
        simpa only [Heap.read] using hu

/-- Field resolves alike when the struct it is taken of routes alike. -/
theorem RValue.Field_of_load (v : RValue) (i : Nat) (h h1 : Heap)
    (hload : ∀ a, v.load h = some a → ∃ b, v.load h1 = some b ∧ sameRoute a b)
    (f : RValue) (hf : v.Field i h = .ok f) : v.Field i h1 = .ok f := by
  cases v with
  | invalid => simp [RValue.Field, RValue.load] at hf
  | direct y s e => simpa [RValue.Field, RValue.load] using hf
  | addr l s e =>
    unfold RValue.Field at hf ⊢
    cases hl : (RValue.addr l s e).load h with
    | none => simp [hl] at hf
    | some a =>
      obtain ⟨b, hb, hs⟩ := hload a hl
      cases a with
      | struct d fs =>
        obtain ⟨fs1, hb1, hsome⟩ := sameRoute_struct d fs b hs
        subst hb1
        simp only [hl] at hf
        simp only [hb]
        cases hd : d.get? i with
        | none => simp [hd] at hf
        | some decl =>
          cases hg : fs.get? i with
          | none => simp [hd, hg] at hf
          | some f0 =>
            have h1s := hsome i
            rw [hg] at h1s
            cases hg1 : fs1.get? i with
            | none => rw [hg1] at h1s; simp at h1s
            | some f1 =>
              simp only [hd, hg] at hf
              simp only [hd, hg1]
              exact hf
      | bool b => simp [hl] at hf
      | int b => simp [hl] at hf
      | str b => simp [hl] at hf
      | ptr a b => simp [hl] at hf
      | slice a b => simp [hl] at hf
      | array a b => simp [hl] at hf

/-- A Field that succeeds is taken of a struct. -/
theorem RValue.Field_load (v : RValue) (i : Nat) (h : Heap) (f : RValue)
    (hf : v.Field i h = .ok f) : ∃ d fs, v.load h = some (.struct d fs) := by
  unfold RValue.Field at hf
  split at hf
  · rename_i d fs hl
    exact ⟨d, fs, hl⟩
  · cases hf

/-- The pointer step of the FieldByIndex loop is taken alike when the value it
starts from routes alike. -/
theorem RValue.hop_of_load (v : RValue) (h h1 : Heap) (a b : GoVal)
    (hl : v.load h = some a) (hb : v.load h1 = some b) (hs : sameRoute a b) (w : RValue)
    (hw : (match v.load h with
      | some (.ptr (.struct _) none) =>
        (.error "reflect: indirection through nil pointer to embedded struct" :
          Except String RValue)
      | some (.ptr (.struct _) (some _)) => v.Elem h
      | _ => .ok v) = .ok w) :
    (match v.load h1 with
      | some (.ptr (.struct _) none) =>
        (.error "reflect: indirection through nil pointer to embedded struct" :
          Except String RValue)
      | some (.ptr (.struct _) (some _)) => v.Elem h1
      | _ => .ok v) = .ok w := by
  by_cases hp : ∃ t tgt, a = .ptr (.struct t) tgt
  · obtain ⟨t, tgt, hp⟩ := hp
    have hba : b = a := hs.2.2 t tgt hp
    subst hba
    rw [hb]
    rw [hl] at hw
    subst hp
    cases tgt with
    | none => simp at hw
    | some l =>
      simp only at hw ⊢
      rw [RValue.Elem_route v h h1 _ hl hb]
      exact hw
  · have hnb : ¬ ∃ t tgt, b = .ptr (.struct t) tgt := by
      rintro ⟨t, tgt, hbp⟩
      have ht := hs.1
      rw [hbp] at ht
      cases a with
      | ptr e tg =>
        simp only [GoVal.typeOf, GoType.ptr.injEq] at ht
        exact hp ⟨t, tg, by rw [ht]⟩
      | bool b => simp [GoVal.typeOf] at ht
      | int b => simp [GoVal.typeOf] at ht
      | str b => simp [GoVal.typeOf] at ht
      | struct a b => simp [GoVal.typeOf] at ht
      | slice a b => simp [GoVal.typeOf] at ht
      | array a b => simp [GoVal.typeOf] at ht
    rw [hl] at hw
    rw [hb]
    have hwv : w = v := by
      split at hw
      · simp at hw
      · rename_i t l heq
        simp only [Option.some.injEq] at heq
        exact absurd ⟨_, _, heq⟩ hp
      · simp only [Except.ok.injEq] at hw
        exact hw.symm
    subst hwv
    split
    · rename_i t heq
      simp only [Option.some.injEq] at heq
      exact absurd ⟨_, _, heq⟩ hnb
    · rename_i t l heq
      simp only [Option.some.injEq] at heq
      exact absurd ⟨_, _, heq⟩ hnb
    · rfl

/-- The loop over a single index is Field. -/
theorem RValue.fieldByIndexLoop_single (v : RValue) (h : Heap) (i : Nat) :
    RValue.fieldByIndexLoop v true h [i] = v.Field i h := by
  simp only [RValue.fieldByIndexLoop, if_true]
  cases v.Field i h <;> rfl

/-- The loop over a path extended by one index is the loop over the path,
followed by one more step. -/
theorem RValue.fieldByIndexLoop_snoc (h : Heap) (x : Nat) (f : RValue) :
    ∀ (p : List Nat) (v : RValue) (first : Bool) (w : RValue),
      RValue.fieldByIndexLoop v first h p = .ok w →
      RValue.fieldByIndexLoop w (first && decide (p = [])) h [x] = .ok f →
      RValue.fieldByIndexLoop v first h (p ++ [x]) = .ok f
  | [], v, first, w, hp, hs => by
    simp only [RValue.fieldByIndexLoop, Except.ok.injEq] at hp
    subst hp
    simpa using hs
  | y :: p, v, first, w, hp, hs => by
    simp only [List.cons_append]
    simp only [RValue.fieldByIndexLoop] at hp ⊢
    generalize (if first = true then (Except.ok v : Except String RValue)
      else
        match v.load h with
        | some (.ptr (.struct _) none) =>
          .error "reflect: indirection through nil pointer to embedded struct"
        | some (.ptr (.struct _) (some _)) => v.Elem h
        | _ => .ok v) = st at hp ⊢
    cases st with
    | error e => simp at hp
    | ok v1 =>
      simp only at hp ⊢
      cases hF : v1.Field y h with
      | error e => simp [hF] at hp
      | ok f1 =>
        simp only [hF] at hp ⊢
        exact RValue.fieldByIndexLoop_snoc h x f p f1 false w hp (by simpa using hs)

/-- The loop of FieldByIndex runs alike in a heap that routes alike everywhere
but at one pointer, when the path does not pass through that pointer before
its end.  The loop is followed from the start: `p` is the part of the path
already walked, `q` the part ahead. -/
theorem RValue.fieldByIndexLoop_except (h h1 : Heap) (floc : Loc) (E : GoType)
    (old : Option Loc) (sref : RValue) (index : List Nat)
    (hP : ∀ l u, l ≠ floc → h.read l = some u → ∃ u1, h1.read l = some u1 ∧ sameRoute u u1)
    (hfo : h.read floc = some (.ptr E old))
    (hpre : ∀ p q s e, index = p ++ q → p ≠ [] → q ≠ [] →
      RValue.fieldByIndexLoop sref true h p ≠ .ok (.addr floc s e)) :
    ∀ (q p : List Nat) (w : RValue) (first : Bool) (r : RValue), index = p ++ q →
      first = decide (p = []) →
      RValue.fieldByIndexLoop sref true h p = .ok w →
      RValue.fieldByIndexLoop w first h q = .ok r →
      RValue.fieldByIndexLoop w first h1 q = .ok r
  | [], p, w, first, r, _, _, _, hr => by simpa [RValue.fieldByIndexLoop] using hr
  | x :: q, p, w, first, r, hidx, hfp, hpw, hr => by
    have hfield : ∀ (u f : RValue), u.Field x h = .ok f → u.Field x h1 = .ok f := by
      intro u f hf
      apply RValue.Field_of_load u x h h1 _ f hf
      intro a ha
      cases u with
      | invalid => simp [RValue.load] at ha
      | direct y s e => exact ⟨a, ha, sameRoute_refl a⟩
      | addr l s e =>
        obtain ⟨d, fs, hld⟩ := RValue.Field_load _ x h f hf
        have hne : l ≠ floc := by
          intro hc
          rw [hc] at hld
          simp only [RValue.load] at hld
          rw [hfo] at hld
          cases hld
        exact hP l a hne ha
    have hcont : ∀ f, RValue.fieldByIndexLoop sref true h (p ++ [x]) = .ok f →
        RValue.fieldByIndexLoop f false h q = .ok r →
        RValue.fieldByIndexLoop f false h1 q = .ok r := by
      intro f hpf hrf
      exact RValue.fieldByIndexLoop_except h h1 floc E old sref index hP hfo hpre q (p ++ [x]) f
        false r (by simp [hidx]) (by simp) hpf hrf
    cases first with
    | true =>
      simp only [RValue.fieldByIndexLoop, if_true] at hr ⊢
      cases hf : w.Field x h with
      | error e => simp [hf] at hr
      | ok f =>
        simp only [hf] at hr
        simp only [hfield w f hf]
        refine hcont f (RValue.fieldByIndexLoop_snoc h x f p sref true w hpw ?_) hr
        rw [← hfp, Bool.and_self, RValue.fieldByIndexLoop_single]
        exact hf
    | false =>
      have hpne : p ≠ [] := by simpa using hfp
      cases hl : w.load h with
      | none =>
        exfalso
        simp only [RValue.fieldByIndexLoop, hl] at hr
        simp [RValue.Field, hl] at hr
      | some a =>
        have hrel : ∃ b, w.load h1 = some b ∧ sameRoute a b := by
          cases w with
          | invalid => simp [RValue.load] at hl
          | direct y s e => exact ⟨a, hl, sameRoute_refl a⟩
          | addr l s e =>
            have hne : l ≠ floc := by
              intro hc
              rw [hc] at hpw
              exact hpre p (x :: q) s e hidx hpne (by simp) hpw
            exact hP l a hne hl
        obtain ⟨b, hb, hs⟩ := hrel
        simp only [RValue.fieldByIndexLoop, Bool.false_eq_true, if_false] at hr ⊢
        split at hr
        · cases hr
        · rename_i w1 hw1
          rw [RValue.hop_of_load w h h1 a b hl hb hs w1 hw1]
          simp only
          cases hf : w1.Field x h with
          | error e => simp [hf] at hr
          | ok f =>
            simp only [hf] at hr
            simp only [hfield w1 f hf]
            refine hcont f (RValue.fieldByIndexLoop_snoc h x f p sref true w hpw ?_) hr
            rw [← hfp, Bool.and_false]
            simp only [RValue.fieldByIndexLoop, Bool.false_eq_true, if_false]
            rw [hw1]
            simp only [hf]

/-- FieldByIndex resolves alike in a heap that routes alike everywhere but at
one pointer, when the index path does not pass through that pointer before its
end. -/
theorem RValue.FieldByIndex_except (h h1 : Heap) (floc : Loc) (E : GoType)
    (old : Option Loc) (sref : RValue) (index : List Nat) (r : RValue)
    (hP : ∀ l u, l ≠ floc → h.read l = some u → ∃ u1, h1.read l = some u1 ∧ sameRoute u u1)
    (hfo : h.read floc = some (.ptr E old))
    (hpre : ∀ p q s e, index = p ++ q → p ≠ [] → q ≠ [] →
      sref.FieldByIndex p h ≠ .ok (.addr floc s e))
    (hr : sref.FieldByIndex index h = .ok r) : sref.FieldByIndex index h1 = .ok r := by
  have hk := RValue.FieldByIndex_kind sref index h r hr
  have hsl : ∀ a, sref.load h = some a → ∃ b, sref.load h1 = some b ∧ sameRoute a b := by
    intro a ha
    cases sref with
    | invalid => simp [RValue.load] at ha
    | direct y s e => exact ⟨a, ha, sameRoute_refl a⟩
    | addr l s e =>
      have hne : l ≠ floc := by
        intro hc
        rw [hc] at hk
        simp [RValue.Kind, RValue.load, hfo, GoVal.kind, GoVal.typeOf, GoType.kind] at hk
      exact hP l a hne ha
  have hk1 : sref.Kind h1 = .Struct := by
    unfold RValue.Kind at hk ⊢
    cases hl : sref.load h with
    | none => simp [hl] at hk
    | some a =>
      obtain ⟨b, hb, hs⟩ := hsl a hl
      simp only [hl] at hk
      simp only [hb, GoVal.kind, ← hs.1]
      exact hk
  have hloop : ∀ p q s e, index = p ++ q → p ≠ [] → q ≠ [] →
      RValue.fieldByIndexLoop sref true h p ≠ .ok (.addr floc s e) := by
    intro p q s e hidx hp hq hc
    apply hpre p q s e hidx hp hq
    unfold RValue.FieldByIndex
    split
    · rw [RValue.fieldByIndexLoop_single] at hc
      exact hc
    · simp only [hk, if_true]
      exact hc
  unfold RValue.FieldByIndex at hr ⊢
  split
  · exact RValue.Field_of_load sref _ h h1 hsl r (by simpa using hr)
  · rename_i hne
    split at hr
    · rename_i i; exact absurd rfl (hne i)
    · simp only [hk, if_true] at hr
      simp only [hk1, if_true]
      exact RValue.fieldByIndexLoop_except h h1 floc E old sref index hP hfo hloop index [] sref
        true r (by simp) (by simp) (by simp [RValue.fieldByIndexLoop]) hr

/-- The struct that the two handlers start from is the same, in any heap: the
proxy holds a value, not a location. -/
theorem Indirect_ValueOf (rv : GoVal) (isPtr : Bool) (h : Heap) (sref : RValue)
    (index : List Nat) (f : RValue)
    (href : (if isPtr then (ValueOf rv).Elem h else .ok (ValueOf rv)) = .ok sref)
    (hfld : sref.FieldByIndex index h = .ok f) (h1 : Heap) :
    Indirect (ValueOf rv) h1 = sref := by
  have hk := RValue.FieldByIndex_kind sref index h f hfld
  cases isPtr with
  | true =>
    simp only [if_true] at href
    cases rv with
    | ptr e tgt =>
      cases tgt with
      | none =>
        simp only [ValueOf, RValue.Elem, RValue.load, Except.ok.injEq] at href
        subst href
        simp [RValue.Kind, RValue.load] at hk
      | some l =>
        simp only [ValueOf, RValue.Elem, RValue.load, Except.ok.injEq] at href
        subst href
        simp [ValueOf, Indirect, RValue.load]
    | bool b => simp [ValueOf, RValue.Elem, RValue.load] at href
    | int b => simp [ValueOf, RValue.Elem, RValue.load] at href
    | str b => simp [ValueOf, RValue.Elem, RValue.load] at href
    | slice a b => simp [ValueOf, RValue.Elem, RValue.load] at href
    | array a b => simp [ValueOf, RValue.Elem, RValue.load] at href
    | struct a b => simp [ValueOf, RValue.Elem, RValue.load] at href
  | false =>
    simp only [Bool.false_eq_true, if_false, Except.ok.injEq] at href
    subst href
    cases rv with
    | ptr e tgt => simp [ValueOf, RValue.Kind, RValue.load, GoVal.kind, GoVal.typeOf, GoType.kind] at hk
    | bool b => simp [ValueOf, Indirect, RValue.load]
    | int b => simp [ValueOf, Indirect, RValue.load]
    | str b => simp [ValueOf, Indirect, RValue.load]
    | slice a b => simp [ValueOf, Indirect, RValue.load]
    | array a b => simp [ValueOf, Indirect, RValue.load]
    | struct a b => simp [ValueOf, Indirect, RValue.load]

/-- C9, amended: write, then read.  On a settable field, with Immutable unset
and a key that names no method the lookup consults, let the converter produce
the value `x` at the type it is called with.  If the field is of scalar kind
(bool, int, string), structNewIndex succeeds and structIndex then returns the
wrap of `x`.  If the field is a pointer and TransparentPointers is set, the
converter being called with the element type, structNewIndex succeeds and
structIndex then returns the wrap of `x` when `x` is not of struct or array
kind, and a proxy over the pointer to the fresh cell holding `x` when it is
(for a pointer to a struct, the index path of the key reaching the field only
at its end, in the heap before the write).  In both cases every location of
the old heap apart from the field reads as before. -/
theorem C9_write_then_read (conv : Converter) (rv : GoVal) (opts : ReflectOptions)
    (mt : Metatable) (isPtr : Bool) (key : String) (value : LValue) (h : Heap)
    (sref : RValue) (index : List Nat) (floc : Loc) (oldv : GoVal)
    (gv : RValue) (cells : List GoVal) (x : GoVal)
    (hI : opts.Immutable = false)
    (hm : isPtr = true ∨ mt.method key = none) (hp : mt.ptrMethod key = none)
    (hf : mt.fieldIndex key = some index)
    (href : (if isPtr then (ValueOf rv).Elem h else .ok (ValueOf rv)) = .ok sref)
    (hfld : sref.FieldByIndex index h = .ok (.addr floc false false))
    (hold : h.read floc = some oldv)
    (hgro : gv.ro = false) (hx : gv.load (h ++ cells) = some x)
    (hsrc : ∀ l s e, gv = .addr l s e → floc.apart l = true) :
    ((oldv.kind = .Bool ∨ oldv.kind = .Int ∨ oldv.kind = .String) →
      conv value oldv.typeOf h = .ok (gv, cells) → x.typeOf = oldv.typeOf →
      ∃ h1, structNewIndex conv (ValueOf rv) opts mt isPtr key value h = (.ret none, h1) ∧
        structIndex (ValueOf rv) opts mt isPtr key h1 = (.ret (some (New x opts)), h1) ∧
        ∀ l : Loc, floc.apart l = true → l.cell < h.length → h1.read l = h.read l) ∧
    (∀ E old, oldv = .ptr E old → opts.TransparentPointers = true →
      conv value E h = .ok (gv, cells) → x.typeOf = E →
      (E.kind = .Struct → ∀ p q s e, index = p ++ q → p ≠ [] → q ≠ [] →
        sref.FieldByIndex p h ≠ .ok (.addr floc s e)) →
      ∃ h2, structNewIndex conv (ValueOf rv) opts mt isPtr key value h = (.ret none, h2) ∧
        structIndex (ValueOf rv) opts mt isPtr key h2 =
          (.ret (some (if x.kind = .Struct ∨ x.kind = .Array
            then .userdata (.ptr E (some ⟨(h ++ cells).length, []⟩)) opts
            else New x opts)), h2) ∧
        ∀ l : Loc, floc.apart l = true → l.cell < h.length → h2.read l = h.read l) := by
  have hlt : floc.cell < h.length := Heap.read_lt h floc _ hold
  have holdc : Heap.read (h ++ cells) floc = some oldv := by
    rw [Heap.read_append _ _ floc hlt]; exact hold
  have hres : ∀ h1 : Heap, h.routesInto h1 →
      (Indirect (ValueOf rv) h1).FieldByIndex index h1 = .ok (.addr floc false false) := by
    intro h1 hrt
    rw [Indirect_ValueOf rv isPtr h sref index _ href hfld h1]
    exact RValue.FieldByIndex_route sref index h h1 hrt _ hfld
  constructor
  · intro hk hconv hxt
    have hkx : x.kind = oldv.kind := by simp [GoVal.kind, hxt]
    have hks : oldv.kind ≠ .Struct ∧ oldv.kind ≠ .Array ∧ oldv.kind ≠ .Ptr ∧
        oldv.kind ≠ .Slice := by
      rcases hk with hk | hk | hk <;> simp [hk]
    obtain ⟨h1, hret, hr1, hfr, hw⟩ := structNewIndex_plain_field conv (ValueOf rv) opts mt
      isPtr key value h sref index floc oldv gv cells x hI href hf hfld hold
      (Or.inl hks.2.2.1) hconv hgro hx hxt
    have hR : sameRoute oldv x := by
      refine ⟨hxt.symm, ?_, ?_⟩
      · intro d fs d1 fs1 ho
        rw [ho] at hks
        simp [GoVal.kind, GoVal.typeOf, GoType.kind] at hks
      · intro t tgt ho
        rw [ho] at hks
        simp [GoVal.kind, GoVal.typeOf, GoType.kind] at hks
    have hrt : h.routesInto h1 :=
      Heap.routesInto_trans h (h ++ cells) h1 (Heap.routesInto_append h cells)
        (Heap.routesInto_write (h ++ cells) h1 floc oldv x holdc hw ⟨hks.1, hks.2.1⟩ hR)
    refine ⟨h1, hret, ?_, hfr⟩
    rw [structIndex_field (ValueOf rv) opts mt isPtr key h1 index _ hm hp hf (hres h1 hrt) rfl,
      structIndex.switch_other _ opts key h1 x (by simp [RValue.load, hr1])
        (by rw [hkx]; exact ⟨hks.2.2.1, hks.2.2.2⟩),
      structIndex.push_plain _ opts h1 x (by simp [RValue.load, hr1]) (by simp [RValue.ro])
        (by rw [hkx]; rintro (hc | hc); exact hks.1 hc; exact hks.2.1 hc)]
  · intro E old hov hT hconv hxt hst
    subst hov
    obtain ⟨h2, hret, hrf, hrn, hfr, hA, hwA, hfrA⟩ := structNewIndex_pointer_field conv
      (ValueOf rv) opts mt isPtr key value h sref index floc E old gv cells x hT hI href hf hfld
      hold hconv hgro hx hxt hsrc
    have hle : h.length ≤ (h ++ cells).length := by
      rw [List.length_append]; exact Nat.le_add_right _ _
    have hfld2 : (Indirect (ValueOf rv) h2).FieldByIndex index h2 =
        .ok (.addr floc false false) := by
      by_cases hE : E.kind = .Struct
      · rw [Indirect_ValueOf rv isPtr h sref index _ href hfld h2]
        refine RValue.FieldByIndex_except h h2 floc E old sref index _ ?_ hold (hst hE) hfld
        intro l u hne hu
        have hlc : l.cell < (h ++ cells).length :=
          Nat.lt_of_lt_of_le (Heap.read_lt h l u hu) hle
        have huz : Heap.read ((h ++ cells) ++ [E.zero]) l = some u := by
          rw [Heap.read_append _ _ l hlc, Heap.read_append _ _ l (Heap.read_lt h l u hu)]
          exact hu
        have holdz : Heap.read ((h ++ cells) ++ [E.zero]) floc = some (.ptr E old) := by
          rw [Heap.read_append _ _ floc (Nat.lt_of_lt_of_le hlt hle)]; exact holdc
        rw [hfrA l (Nat.ne_of_lt hlc)]
        exact Heap.read_write_route_ne _ hA floc (.ptr E old) _ holdz hwA
          (by simp [GoVal.kind, GoVal.typeOf, GoType.kind]) l hne u huz
      · apply hres
        have hltz : floc.cell < ((h ++ cells) ++ [E.zero]).length := by
          rw [List.length_append]
          exact Nat.lt_of_lt_of_le (Nat.lt_of_lt_of_le hlt hle) (Nat.le_add_right _ _)
        have holdz : Heap.read ((h ++ cells) ++ [E.zero]) floc = some (.ptr E old) := by
          rw [Heap.read_append _ _ floc (Nat.lt_of_lt_of_le hlt hle)]; exact holdc
        have hR : sameRoute (GoVal.ptr E old) (.ptr E (some ⟨(h ++ cells).length, []⟩)) := by
          refine ⟨rfl, ?_, ?_⟩
          · intro d fs d1 fs1 ho
            cases ho
          · intro t tgt ho
            simp only [GoVal.ptr.injEq] at ho
            rw [ho.1] at hE
            simp [GoType.kind] at hE
        have hrtA : h.routesInto hA :=
          Heap.routesInto_trans h ((h ++ cells) ++ [E.zero]) hA
            (Heap.routesInto_trans h (h ++ cells) _ (Heap.routesInto_append h cells)
              (Heap.routesInto_append (h ++ cells) [E.zero]))
            (Heap.routesInto_write _ hA floc (.ptr E old) _ holdz hwA
              (by simp [GoVal.kind, GoVal.typeOf, GoType.kind]) hR)
        intro l u hu
        have hl : l.cell ≠ (h ++ cells).length :=
          Nat.ne_of_lt (Nat.lt_of_lt_of_le (Heap.read_lt h l u hu) hle)
        rw [hfrA l hl]
        exact hrtA l u hu
    refine ⟨h2, hret, ?_, ?_⟩
    · have hlf : (RValue.addr floc false false).load h2 =
          some (.ptr E (some ⟨(h ++ cells).length, []⟩)) := hrf
      rw [structIndex_field (ValueOf rv) opts mt isPtr key h2 index _ hm hp hf hfld2 rfl,
        structIndex.switch_pointer _ opts key h2 E _ hT hlf,
        structIndex.deref_some _ opts h2 E _ x hlf rfl hrn, hxt]
    · intro l hap hl
      rw [hfr l hap (Nat.lt_of_lt_of_le hl hle), Heap.read_append _ _ l hl]

theorem C9_write_then_read_witness :
    (∃ h1, structNewIndex convBasic (ValueOf pTim) ⟨false, false, false⟩ mtPerson true "Name"
        (.string "Tom") hTim = (.ret none, h1) ∧
      structIndex (ValueOf pTim) ⟨false, false, false⟩ mtPerson true "Name" h1 =
        (.ret (some (New (.str "Tom") ⟨false, false, false⟩)), h1) ∧
      ∀ l : Loc, Loc.apart ⟨0, [0]⟩ l = true → l.cell < hTim.length →
        h1.read l = hTim.read l) ∧
    (∃ h2, structNewIndex convBasic (ValueOf (.ptr (.struct tA) (some ⟨2, []⟩))) optsTP mtA
        true "B" (.userdata vB optsTP) hVar = (.ret none, h2) ∧
      structIndex (ValueOf (.ptr (.struct tA) (some ⟨2, []⟩))) optsTP mtA true "B" h2 =
        (.ret (some (.userdata (.ptr (.struct tB) (some ⟨3, []⟩)) optsTP)), h2) ∧
      ∀ l : Loc, Loc.apart ⟨2, [0]⟩ l = true → l.cell < hVar.length →
        h2.read l = hVar.read l) ∧
    (∃ h2, structNewIndex convBasic (ValueOf (.ptr (.struct tEmbA) (some ⟨3, []⟩))) optsTP
        mtEmbA true "B" (.userdata vB optsTP) hEmbA = (.ret none, h2) ∧
      structIndex (ValueOf (.ptr (.struct tEmbA) (some ⟨3, []⟩))) optsTP mtEmbA true "B" h2 =
        (.ret (some (.userdata (.ptr (.struct tB) (some ⟨4, []⟩)) optsTP)), h2) ∧
      ∀ l : Loc, Loc.apart ⟨2, [0]⟩ l = true → l.cell < hEmbA.length →
        h2.read l = hEmbA.read l) :=
  ⟨(C9_write_then_read convBasic pTim ⟨false, false, false⟩ mtPerson true "Name"
      (.string "Tom") hTim (.addr ⟨0, []⟩ false false) [0] ⟨0, [0]⟩ (.str "Tim")
      (ValueOf (.str "Tom")) [] (.str "Tom") rfl (Or.inl rfl) (by decide) (by decide)
      (by decide) (by decide) (by decide) rfl (by decide)
      (by intro l s e hc; exact absurd hc (by simp [ValueOf]))).1
      (Or.inr (Or.inr rfl)) (by decide) rfl,
    (C9_write_then_read convBasic (.ptr (.struct tA) (some ⟨2, []⟩)) optsTP mtA true "B"
      (.userdata vB optsTP) hVar (.addr ⟨2, []⟩ false false) [0] ⟨2, [0]⟩
      (.ptr (.struct tB) none) (ValueOf vB) [] vB rfl (Or.inl rfl) (by decide) (by decide)
      (by decide) (by decide) (by decide) rfl (by decide)
      (by intro l s e hc; exact absurd hc (by simp [ValueOf]))).2
      (.struct tB) none rfl rfl (by decide) (by decide)
      (by
        intro _ p q s e hpq hp hq
        cases p with
        | nil => exact absurd rfl hp
        | cons a p =>
          cases q with
          | nil => exact absurd rfl hq
          | cons b q => simp at hpq),
    (C9_write_then_read convBasic (.ptr (.struct tEmbA) (some ⟨3, []⟩)) optsTP mtEmbA true "B"
      (.userdata vB optsTP) hEmbA (.addr ⟨3, []⟩ false false) [0, 0] ⟨2, [0]⟩
      (.ptr (.struct tB) none) (ValueOf vB) [] vB rfl (Or.inl rfl) (by decide) (by decide)
      (by decide) (by decide) (by decide) rfl (by decide)
      (by intro l s e hc; exact absurd hc (by simp [ValueOf]))).2
      (.struct tB) none rfl rfl (by decide) (by decide)
      (by
        intro _ p q s e hpq hp hq
        have hstep : (RValue.addr ⟨3, []⟩ false false).FieldByIndex [0] hEmbA =
            .ok (.addr ⟨3, [0]⟩ false false) := by decide
        cases p with
        | nil => exact absurd rfl hp
        | cons a p =>
          cases p with
          | nil =>
            simp only [List.singleton_append, List.cons.injEq] at hpq
            rw [← hpq.1, hstep]
            simp
          | cons b p =>
            cases q with
            | nil => exact absurd rfl hq
            | cons c q => simp at hpq)⟩

/-- C9, as stated, fails for a pointer field whose pointee is a struct: after
the assignment of a TestTransparentPtrAccessB to the field B of Test_struct_
transparentptr_varassign, the read of B returns a proxy over the pointer to
the cell holding the copy, not the wrap of the converted struct. -/
theorem C9_counterexample :
    convBasic (.userdata vB optsTP) (.struct tB) hVar = .ok (ValueOf vB, []) ∧
    structNewIndex convBasic (ValueOf (.ptr (.struct tA) (some ⟨2, []⟩))) optsTP mtA true "B"
        (.userdata vB optsTP) hVar =
      (.ret none, [.str "assigned ptr value", vB,
        .struct tA (.cons (.ptr (.struct tB) (some ⟨3, []⟩)) .nil), vB]) ∧
    structIndex (ValueOf (.ptr (.struct tA) (some ⟨2, []⟩))) optsTP mtA true "B"
        [.str "assigned ptr value", vB,
          .struct tA (.cons (.ptr (.struct tB) (some ⟨3, []⟩)) .nil), vB] =
      (.ret (some (.userdata (.ptr (.struct tB) (some ⟨3, []⟩)) optsTP)),
        [.str "assigned ptr value", vB,
          .struct tA (.cons (.ptr (.struct tB) (some ⟨3, []⟩)) .nil), vB]) ∧
    LValue.userdata (.ptr (.struct tB) (some ⟨3, []⟩)) optsTP ≠ New vB optsTP := by
  decide

/-! ### Flag inheritance -/

theorem New_userdata_opts (x : GoVal) (opts : ReflectOptions) (v : GoVal) (o : ReflectOptions)
    (hn : New x opts = .userdata v o) : o = opts := by
  unfold New at hn
  split at hn <;> simp at hn
  exact hn.2.symm

theorem structIndex.push_ret (field : RValue) (opts : ReflectOptions) (h : Heap) (lv : LValue)
    (hr : (structIndex.push field opts h).1 = .ret (some lv)) : ∃ x, lv = New x opts := by
  unfold structIndex.push at hr
  split at hr
  · split at hr
    · simp at hr
    · split at hr
      · simp at hr
      · simp only [Outcome.ret.injEq, Option.some.injEq] at hr
        exact ⟨_, hr.symm⟩
  · split at hr
    · simp at hr
    · simp only [Outcome.ret.injEq, Option.some.injEq] at hr
      exact ⟨_, hr.symm⟩

theorem structIndex.deref_ret (field : RValue) (opts : ReflectOptions) (h : Heap) (lv : LValue)
    (hr : (structIndex.deref field opts h).1 = .ret (some lv)) : ∃ x, lv = New x opts := by
  unfold structIndex.deref at hr
  split at hr
  · simp at hr
  · split at hr <;> exact structIndex.push_ret _ opts h lv hr

theorem structIndex.switch_ret (field : RValue) (opts : ReflectOptions) (key : String)
    (h : Heap) (lv : LValue)
    (hr : (structIndex.switch field opts key h).1 = .ret (some lv)) : ∃ x, lv = New x opts := by
  unfold structIndex.switch at hr
  repeat' split at hr
  all_goals first
    | exact structIndex.push_ret _ opts _ lv hr
    | exact structIndex.deref_ret _ opts _ lv hr
    | simp at hr

theorem checkPtr_userdata (pv : GoVal) (opts : ReflectOptions) (rest : List LValue)
    (mt : Metatable) (r : RValue) (o : ReflectOptions) (m : Metatable)
    (hc : checkPtr (.userdata pv opts :: rest) 1 mt = .ok (r, o, m)) :
    r = ValueOf pv ∧ o = opts := by
  unfold checkPtr at hc
  simp only [Nat.sub_self, List.getElem?_cons_zero] at hc
  split at hc
  · simp at hc
  · simp only [Except.ok.injEq, Prod.mk.injEq] at hc
    exact ⟨hc.1.symm, hc.2.1.symm⟩

theorem ptrUnm_ret (pv : GoVal) (opts : ReflectOptions) (rest : List LValue) (mt : Metatable)
    (h : Heap) (lv : LValue)
    (hr : (ptrUnm (.userdata pv opts :: rest) mt h).1 = .ret (some lv)) :
    ∃ x, lv = New x opts := by
  unfold ptrUnm at hr
  split at hr
  · simp at hr
  · rename_i r o m hck
    obtain ⟨_, ho⟩ := checkPtr_userdata pv opts rest mt r o m hck
    subst ho
    repeat' split at hr
    all_goals first
      | (simp only [Outcome.ret.injEq, Option.some.injEq] at hr; exact ⟨_, hr.symm⟩)
      | simp at hr

/-- C10: flag inheritance.  Whatever structIndex returns is either the method
found by the method lookup or `New x opts` for some `x`, with `opts` the
options of the parent proxy, for every options value and every key; and
whatever ptrUnm returns is `New x opts` with `opts` the options of the
dereferenced proxy.  A proxy made by `New x opts` carries exactly `opts`. -/
theorem C10_flag_inheritance (opts : ReflectOptions) (mt : Metatable) (h : Heap) :
    (∀ (ref : RValue) (isPtr : Bool) (key : String) (lv : LValue),
      (structIndex ref opts mt isPtr key h).1 = .ret (some lv) →
        (mt.method key = some lv ∨ mt.ptrMethod key = some lv) ∨
        ((∃ x, lv = New x opts) ∧ ∀ v o, lv = .userdata v o → o = opts)) ∧
    (∀ (pv : GoVal) (rest : List LValue) (lv : LValue),
      (ptrUnm (.userdata pv opts :: rest) mt h).1 = .ret (some lv) →
        (∃ x, lv = New x opts) ∧ ∀ v o, lv = .userdata v o → o = opts) := by
  have hnew : ∀ lv : LValue, (∃ x, lv = New x opts) →
      ((∃ x, lv = New x opts) ∧ ∀ v o, lv = .userdata v o → o = opts) := by
    intro lv hx
    refine ⟨hx, ?_⟩
    obtain ⟨x, hx⟩ := hx
    intro v o hv
    exact New_userdata_opts x opts v o (by rw [← hx, hv])
  constructor
  · intro ref isPtr key lv hr
    unfold structIndex at hr
    split at hr
    · rename_i fn hfn
      simp only [Outcome.ret.injEq, Option.some.injEq] at hr
      subst hr
      left; left
      by_cases hi : isPtr = false
      · simpa [hi] using hfn
      · simp [hi] at hfn
    · split at hr
      · rename_i fn hfn
        split at hr
        · simp at hr
        · simp only [Outcome.ret.injEq, Option.some.injEq] at hr
          subst hr
          left; right; exact hfn
      · repeat' split at hr
        all_goals first
          | (right; exact hnew lv (structIndex.switch_ret _ opts key h lv hr))
          | simp at hr
  · intro pv rest lv hr
    apply hnew
    exact ptrUnm_ret pv opts rest mt h lv hr

theorem C10_flag_inheritance_witness :
    ((∃ x, LValue.userdata (.ptr (.struct tB) (some ⟨3, []⟩)) optsTP = New x optsTP) ∧
      ∀ v o, LValue.userdata (.ptr (.struct tB) (some ⟨3, []⟩)) optsTP = .userdata v o →
        o = optsTP) ∧
    ((∃ x, LValue.userdata vB optsTP = New x optsTP) ∧
      ∀ v o, LValue.userdata vB optsTP = .userdata v o → o = optsTP) :=
  ⟨((C10_flag_inheritance optsTP mtA
      [.str "assigned ptr value", vB,
        .struct tA (.cons (.ptr (.struct tB) (some ⟨3, []⟩)) .nil), vB]).1
      (ValueOf (.ptr (.struct tA) (some ⟨2, []⟩))) true "B"
      (.userdata (.ptr (.struct tB) (some ⟨3, []⟩)) optsTP) (by decide)).resolve_left
        (by decide),
   (C10_flag_inheritance optsTP mtB hVar).2 (.ptr (.struct tB) (some ⟨1, []⟩)) []
      (.userdata vB optsTP) (by decide)⟩

/-! ## The claims on pointers and on unknown keys -/

/-- What a successful Value.Set did: the content of the source, of the type of
the old content, was written at the location. -/
theorem RValue.Set_ok (l : Loc) (s e : Bool) (x : RValue) (h h1 : Heap)
    (hs : (RValue.addr l s e).Set x h = .ok h1) :
    ∃ old new, h.read l = some old ∧ x.load h = some new ∧ new.typeOf = old.typeOf ∧
      h.write l new = some h1 := by
  simp only [RValue.Set] at hs
  by_cases hse : (s || e) = true
  · simp [hse] at hs
  · by_cases hxr : x.ro = true
    · simp [hse, hxr] at hs
    · simp only [hse, hxr, if_false] at hs
      cases ho : h.read l with
      | none => simp [ho] at hs
      | some old =>
        cases hn : x.load h with
        | none => simp [ho, hn] at hs
        | some new =>
          simp only [ho, hn] at hs
          by_cases ht : new.typeOf = old.typeOf
          · simp only [ht, if_true] at hs
            cases hw : h.write l new with
            | none => simp [hw] at hs
            | some h2 =>
              simp [hw] at hs
              subst hs
              exact ⟨old, new, rfl, rfl, ht, hw⟩
          · simp [ht] at hs

/-- A write that succeeds stores the value and leaves every location apart. -/
theorem Heap.write_ok (h h1 : Heap) (l : Loc) (old x : GoVal) (hr : h.read l = some old)
    (hw : h.write l x = some h1) :
    h1.read l = some x ∧ ∀ l2 : Loc, l.apart l2 = true → h1.read l2 = h.read l2 := by
  obtain ⟨h2, hw2, hr2, _, hfr⟩ := Heap.write_of_read h l old x hr
  rw [hw] at hw2
  cases hw2
  exact ⟨hr2, hfr⟩

/-- C11: ptrPow on a proxy over a pointer and an operand.  With Immutable set
it raises "invalid operation for immutable pointer".  With Immutable unset: on
a nil pointer it raises "cannot dereference nil pointer"; when the converter,
called with the type of the pointee, yields no valid value it raises "unable
to set pointer value"; when it yields a value of that type the handler
returns and the pointee equals the converted value.  The pointee changes only
then: whenever the handler does not return, every location of the old heap
reads as before, and whenever it returns, Immutable is unset, the pointer is
not nil, the conversion gave a valid value and the pointee holds it. -/
theorem C11_ptrPow (conv : Converter) (pv : GoVal) (opts : ReflectOptions) (val : LValue)
    (mt : Metatable) (h : Heap) (hk : pv.kind = .Ptr) :
    (opts.Immutable = true →
      ptrPow conv [.userdata pv opts, val] mt h =
        (.raise "invalid operation for immutable pointer", h)) ∧
    (opts.Immutable = false → ∀ E, pv = .ptr E none →
      ptrPow conv [.userdata pv opts, val] mt h = (.raise "cannot dereference nil pointer", h)) ∧
    (opts.Immutable = false → ∀ E l old cells, pv = .ptr E (some l) → h.read l = some old →
      conv val old.typeOf h = .ok (.invalid, cells) →
      ptrPow conv [.userdata pv opts, val] mt h =
          (.raise "unable to set pointer value", h ++ cells) ∧
        Heap.read (h ++ cells) l = some old) ∧
    (opts.Immutable = false → ∀ E l old gv cells x, pv = .ptr E (some l) →
      h.read l = some old → conv val old.typeOf h = .ok (gv, cells) →
      gv.ro = false → gv.load (h ++ cells) = some x → x.typeOf = old.typeOf →
      ∃ h1, ptrPow conv [.userdata pv opts, val] mt h = (.ret (some val), h1) ∧
        h1.read l = some x ∧
        ∀ l2 : Loc, l.apart l2 = true → l2.cell < h.length → h1.read l2 = h.read l2) ∧
    (∀ o h1, ptrPow conv [.userdata pv opts, val] mt h = (o, h1) → (∀ r, o ≠ .ret r) →
      ∀ l2 : Loc, l2.cell < h.length → h1.read l2 = h.read l2) ∧
    (∀ r h1, ptrPow conv [.userdata pv opts, val] mt h = (.ret r, h1) →
      opts.Immutable = false ∧
      ∃ E l old gv cells x, pv = .ptr E (some l) ∧ h.read l = some old ∧
        conv val old.typeOf h = .ok (gv, cells) ∧ gv.IsValid = true ∧
        gv.load (h ++ cells) = some x ∧ h1.read l = some x) := by
  have hck : checkPtr [.userdata pv opts, val] 1 mt = .ok (ValueOf pv, opts, mt) := by
    simp [checkPtr, hk]
  refine ⟨?_, ?_, ?_, ?_, ?_, ?_⟩
  · intro hI
    simp [ptrPow, hck, hI]
  · intro hI E hp
    subst hp
    simp [ptrPow, hck, hI, ValueOf, RValue.IsNil, RValue.load]
  · intro hI E l old cells hp hr hc
    subst hp
    refine ⟨?_, by rw [Heap.read_append h cells l (Heap.read_lt h l old hr)]; exact hr⟩
    simp [ptrPow, hck, hI, ValueOf, RValue.IsNil, RValue.load, RValue.Elem, RValue.CanSet,
      RValue.CanAddr, RValue.ro, RValue.Type, hr, hc, RValue.IsValid]
  · intro hI E l old gv cells x hp hr hc hgro hx hxt
    subst hp
    have hrc : Heap.read (h ++ cells) l = some old := by
      rw [Heap.read_append h cells l (Heap.read_lt h l old hr)]; exact hr
    obtain ⟨h1, hw, hr1, _, hfr⟩ := Heap.write_of_read (h ++ cells) l old x hrc
    have hv : gv.IsValid = true := by
      cases gv with
      | invalid => simp [RValue.load] at hx
      | direct y s e => rfl
      | addr l s e => rfl
    have hset : (RValue.addr l false false).Set gv (h ++ cells) = .ok h1 := by
      simp only [RValue.Set, hgro, hrc, hx, hxt, hw]
      simp
    refine ⟨h1, ?_, hr1, ?_⟩
    · simp [ptrPow, hck, hI, ValueOf, RValue.IsNil, RValue.load, RValue.Elem, RValue.CanSet,
        RValue.CanAddr, RValue.ro, RValue.Type, hr, hc, hv, hset]
    · intro l2 hap hl2
      rw [hfr l2 hap, Heap.read_append h cells l2 hl2]
  · intro o h1 hres hnr l2 hl2
    unfold ptrPow at hres
    rw [hck] at hres
    simp only at hres
    repeat' split at hres
    all_goals
      simp only [Prod.mk.injEq] at hres
      obtain ⟨ho, hh⟩ := hres
      subst hh
    all_goals first
      | rfl
      | exact Heap.read_append h _ l2 hl2
      | exact absurd ho.symm (hnr _)
  · intro r h1 hres
    unfold ptrPow at hres
    rw [hck] at hres
    simp only at hres
    split at hres
    · simp at hres
    · rename_i hI
      split at hres
      · simp at hres
      · rename_i v0 hv0
        split at hres
        · simp at hres
        · rename_i hnil
          split at hres
          · simp at hres
          · rename_i elem hel
            split at hres
            · simp at hres
            · split at hres
              · simp at hres
              · rename_i t ht
                split at hres
                · simp at hres
                · rename_i gv cells hc
                  split at hres
                  · simp at hres
                  · rename_i hv
                    split at hres
                    · simp at hres
                    · rename_i h2 hset
                      simp only [Prod.mk.injEq] at hres
                      obtain ⟨_, hh⟩ := hres
                      subst hh
                      refine ⟨by simpa using hI, ?_⟩
                      cases pv with
                      | ptr E tgt =>
                        cases tgt with
                        | none => simp [ValueOf, RValue.IsNil, RValue.load] at hnil
                        | some l =>
                          simp only [ValueOf, RValue.Elem, RValue.load, Except.ok.injEq] at hel
                          subst hel
                          obtain ⟨old, new, ho, hn, _, hw⟩ := RValue.Set_ok l false false gv _ _ hset
                          have hoh : h.read l = some old := by
                            cases hr : h.read l with
                            | none => simp [RValue.Type, RValue.load, hr] at ht
                            | some o2 =>
                              rw [Heap.read_append h cells l (Heap.read_lt h l o2 hr), hr] at ho
                              exact ho
                          have hto : t = old.typeOf := by
                            simp only [RValue.Type, RValue.load, hoh, Option.some.injEq] at ht
                            exact ht.symm
                          subst hto
                          have hval : v0 = val := by simpa using hv0.symm
                          subst hval
                          exact ⟨E, l, old, gv, cells, new, rfl, hoh, hc, by simpa using hv, hn,
                            (Heap.write_ok _ _ l old new ho hw).1⟩
                      | bool b => simp [GoVal.kind, GoVal.typeOf, GoType.kind] at hk
                      | int b => simp [GoVal.kind, GoVal.typeOf, GoType.kind] at hk
                      | str b => simp [GoVal.kind, GoVal.typeOf, GoType.kind] at hk
                      | slice a b => simp [GoVal.kind, GoVal.typeOf, GoType.kind] at hk
                      | array a b => simp [GoVal.kind, GoVal.typeOf, GoType.kind] at hk
                      | struct a b => simp [GoVal.kind, GoVal.typeOf, GoType.kind] at hk

theorem C11_ptrPow_witness :
    (∃ h1, ptrPow convBasic [.userdata pTim optsNone, .userdata vJohn optsNone] mtPerson hTim =
        (.ret (some (.userdata vJohn optsNone)), h1) ∧
      h1.read ⟨0, []⟩ = some vJohn ∧
      ∀ l2 : Loc, Loc.apart ⟨0, []⟩ l2 = true → l2.cell < hTim.length →
        h1.read l2 = hTim.read l2) ∧
    (ptrPow convStrict [.userdata pTim optsNone, .table 1] mtPerson hTim =
        (.raise "unable to set pointer value", hTim ++ []) ∧
      Heap.read (hTim ++ []) ⟨0, []⟩ = some vTim) :=
  ⟨(C11_ptrPow convBasic pTim optsNone (.userdata vJohn optsNone) mtPerson hTim rfl).2.2.2.1 rfl
      (.struct tPerson) ⟨0, []⟩ vTim (ValueOf vJohn) [] vJohn rfl (by decide) (by decide) rfl
      (by decide) rfl,
   (C11_ptrPow convStrict pTim optsNone (.table 1) mtPerson hTim rfl).2.2.1 rfl
      (.struct tPerson) ⟨0, []⟩ vTim [] rfl (by decide) (by decide)⟩

/-- C12, the code: ptrEq reads both references from argument 1, so on a proxy
over any pointer and any second argument it returns true.  In particular it
returns true on two proxies over distinct pointers (Tim in cell 0, John in
cell 1, as p1 and p2 of Test_struct_pointers). -/
theorem C12_ptrEq_always_true :
    (∀ (E : GoType) (t : Option Loc) (o : ReflectOptions) (b : LValue) (rest : List LValue)
        (mt : Metatable) (h : Heap),
      ptrEq (.userdata (.ptr E t) o :: b :: rest) mt h = (.ret (some (.bool true)), h)) ∧
    RValue.Pointer (ValueOf pTim) hTwo ≠ RValue.Pointer (ValueOf pJohn) hTwo ∧
    ptrEq [.userdata pTim optsNone, .userdata pJohn optsNone] mtPerson hTwo =
      (.ret (some (.bool true)), hTwo) := by
  refine ⟨?_, by decide, by decide⟩
  intro E t o b rest mt h
  simp [ptrEq, checkPtr, GoVal.kind, GoVal.typeOf, GoType.kind]

/-- C13: ptrUnm on a proxy over a non-nil pointer returns the pointed-to value,
wrapped with the options of the proxy; on a proxy over a nil pointer it ends
in an error (the Go runtime panics in CanInterface on the zero Value) and
returns no value.  The heap is unchanged in both cases. -/
theorem C13_ptrUnm (E : GoType) (opts : ReflectOptions) (rest : List LValue) (mt : Metatable)
    (h : Heap) :
    (∀ (l : Loc) (x : GoVal), h.read l = some x →
      ptrUnm (.userdata (.ptr E (some l)) opts :: rest) mt h = (.ret (some (New x opts)), h)) ∧
    (ptrUnm (.userdata (.ptr E none) opts :: rest) mt h =
        (.panic "reflect: call of reflect.Value.CanInterface on zero Value", h) ∧
      ∀ r, (ptrUnm (.userdata (.ptr E none) opts :: rest) mt h).1 ≠ .ret r) := by
  have hnil : ptrUnm (.userdata (.ptr E none) opts :: rest) mt h =
      (.panic "reflect: call of reflect.Value.CanInterface on zero Value", h) := by
    simp [ptrUnm, checkPtr, GoVal.kind, GoVal.typeOf, GoType.kind, ValueOf, RValue.Elem,
      RValue.load, RValue.CanInterface]
  refine ⟨?_, hnil, ?_⟩
  · intro l x hx
    simp [ptrUnm, checkPtr, GoVal.kind, GoVal.typeOf, GoType.kind, ValueOf, RValue.Elem,
      RValue.load, RValue.CanInterface, RValue.ro, RValue.Interface, hx]
  · intro r
    rw [hnil]
    simp

theorem C13_ptrUnm_witness :
    ptrUnm [.userdata pTim optsNone] mtPerson hTim = (.ret (some (New vTim optsNone)), hTim) :=
  (C13_ptrUnm (.struct tPerson) optsNone [] mtPerson hTim).1 ⟨0, []⟩ vTim (by decide)

/-- C14: with Immutable unset, structNewIndex on a key that the field table of
the descriptor does not hold (a hidden field, a name that is only a method)
raises "unknown field <key>" and leaves the heap unchanged; and structIndex on
a key that is no method, no pointer method and no field returns nothing,
without raising, the heap unchanged. -/
theorem C14_unknown_key (conv : Converter) (ref sref : RValue) (opts : ReflectOptions)
    (mt : Metatable) (isPtr : Bool) (key : String) (value : LValue) (h : Heap)
    (hf : mt.fieldIndex key = none) :
    (opts.Immutable = false → (if isPtr then ref.Elem h else .ok ref) = .ok sref →
      structNewIndex conv ref opts mt isPtr key value h = (.raise ("unknown field " ++ key), h)) ∧
    (mt.method key = none → mt.ptrMethod key = none →
      structIndex ref opts mt isPtr key h = (.ret none, h)) := by
  constructor
  · intro hI href
    unfold structNewIndex
    simp [hI, href, hf]
  · intro hm hp
    unfold structIndex
    simp [hm, hp, hf]

theorem C14_unknown_key_witness :
    structNewIndex convBasic (ValueOf pHidden) optsNone mtHidden true "Hidden" (.bool false)
        hHidden = (.raise ("unknown field " ++ "Hidden"), hHidden) ∧
    structIndex (ValueOf pHidden) optsNone mtHidden true "Hidden" hHidden = (.ret none, hHidden) ∧
    structNewIndex convBasic (ValueOf pTim) optsNone mtPerson true "Hello" (.string "x") hTim =
      (.raise ("unknown field " ++ "Hello"), hTim) :=
  ⟨(C14_unknown_key convBasic (ValueOf pHidden) (.addr ⟨0, []⟩ false false) optsNone mtHidden
      true "Hidden" (.bool false) hHidden (by decide)).1 rfl (by decide),
   (C14_unknown_key convBasic (ValueOf pHidden) (.addr ⟨0, []⟩ false false) optsNone mtHidden
      true "Hidden" (.bool false) hHidden (by decide)).2 (by decide) (by decide),
   (C14_unknown_key convBasic (ValueOf pTim) (.addr ⟨0, []⟩ false false) optsNone mtPerson
      true "Hello" (.string "x") hTim (by decide)).1 rfl (by decide)⟩

/-! ## The claims on name resolution -/

/-- C15, amended: a field name is shadowed by a method.  When the proxy is not
in pointer form and the key names a value-receiver method, structIndex returns
that method, whatever the field table holds.  When the lookup reaches a
pointer-receiver method of that name, it returns that method, or raises under
Immutable, whatever the field table holds.  The field is reached only when no
method of that name is consulted: then structIndex is its switch on the
field. -/
theorem C15_method_shadows_field (ref : RValue) (opts : ReflectOptions) (mt : Metatable)
    (isPtr : Bool) (key : String) (h : Heap) :
    (∀ fn, isPtr = false → mt.method key = some fn →
      structIndex ref opts mt isPtr key h = (.ret (some fn), h)) ∧
    (∀ fn, (isPtr = true ∨ mt.method key = none) → mt.ptrMethod key = some fn →
      structIndex ref opts mt isPtr key h =
        (if opts.Immutable then .raise "cannot call pointer methods on immutable objects"
          else .ret (some fn), h)) ∧
    (∀ index field, (isPtr = true ∨ mt.method key = none) → mt.ptrMethod key = none →
      mt.fieldIndex key = some index →
      (Indirect ref h).FieldByIndex index h = .ok field → field.CanInterface = .ok true →
      structIndex ref opts mt isPtr key h = structIndex.switch field opts key h) := by
  refine ⟨?_, ?_, ?_⟩
  · intro fn hi hm
    unfold structIndex
    simp [hi, hm]
  · intro fn hreach hp
    have h1 : (if isPtr = false then mt.method key else none) = none := by
      rcases hreach with hi | hm
      · simp [hi]
      · simp [hm]
    unfold structIndex
    cases hI : opts.Immutable <;> simp [h1, hp, hI]
  · intro index field hreach hp hf hfld hci
    exact structIndex_field ref opts mt isPtr key h index field hreach hp hf hfld hci

theorem C15_method_shadows_field_witness :
    structIndex (ValueOf vTim) optsNone mtShadow false "Hello" hTim =
      (.ret (some (.function 1)), hTim) :=
  (C15_method_shadows_field (ValueOf vTim) optsNone mtShadow false "Hello" hTim).1 (.function 1)
    rfl (by decide)

/-- C15, as stated, fails: in the descriptor `mtShadow` the key Hello names
both the field holding "Tim" and the method Hello; on Tim wrapped by value
structIndex returns the method, not the field. -/
theorem C15_counterexample :
    mtShadow.fieldIndex "Hello" = some [0] ∧
    mtShadow.method "Hello" = some (.function 1) ∧
    (Indirect (ValueOf vTim) hTim).FieldByIndex [0] hTim = .ok (.direct (.str "Tim") false false) ∧
    structIndex (ValueOf vTim) optsNone mtShadow false "Hello" hTim =
      (.ret (some (.function 1)), hTim) ∧
    (structIndex (ValueOf vTim) optsNone mtShadow false "Hello" hTim).1 ≠
      .ret (some (New (.str "Tim") optsNone)) := by
  decide

theorem lookup_none_of_forall {α : Type} (t : List (String × α)) (name : String)
    (hn : ∀ e ∈ t, e.1 ≠ name) : t.lookup name = none := by
  induction t with
  | nil => rfl
  | cons e rest ih =>
    obtain ⟨k, v⟩ := e
    have hk : k ≠ name := hn (k, v) (List.mem_cons_self _ _)
    have hb : (name == k) = false := by
      simp only [beq_eq_false_iff_ne, ne_eq]
      exact fun hc => hk hc.symm
    simp only [List.lookup, hb]
    exact ih (fun e he => hn e (List.mem_cons_of_mem _ he))

theorem mem_of_lookup_some {α : Type} (t : List (String × α)) (name : String) (v : α)
    (hl : t.lookup name = some v) : (name, v) ∈ t := by
  induction t with
  | nil => simp [List.lookup] at hl
  | cons e rest ih =>
    obtain ⟨k, w⟩ := e
    by_cases hb : (name == k) = true
    · simp only [List.lookup, hb, Option.some.injEq] at hl
      have hk : name = k := by simpa using hb
      subst hl
      subst hk
      exact List.mem_cons_self _ _
    · have hb2 : (name == k) = false := by simpa using hb
      simp only [List.lookup, hb2] at hl
      exact List.mem_cons_of_mem _ (ih hl)

theorem lookup_append_of_forall {α : Type} (before after : List (String × α)) (name : String)
    (v : α) (hn : ∀ e ∈ before, e.1 ≠ name) :
    (before ++ (name, v) :: after).lookup name = some v := by
  induction before with
  | nil => simp [List.lookup]
  | cons e rest ih =>
    obtain ⟨k, w⟩ := e
    have hk : k ≠ name := hn (k, w) (List.mem_cons_self _ _)
    have hb : (name == k) = false := by
      simp only [beq_eq_false_iff_ne, ne_eq]
      exact fun hc => hk hc.symm
    simp only [List.cons_append, List.lookup, hb]
    exact ih (fun e he => hn e (List.mem_cons_of_mem _ he))

/-- C16, amended: lookup in the descriptor is by the exact key.  A name for
which a table holds no entry under that very spelling resolves to nothing in
that table, whatever entries differ from it only in case; and a name resolves
to a field or method only through an entry of the table under that very
name, the first one.  So a lookup of `name` resolves to the field of `Name`
exactly when the field table holds an entry `name` with the same index
path. -/
theorem C16_lookup_is_exact (m : Metatable) (name : String) :
    ((∀ e ∈ m.fields, e.1 ≠ name) → m.fieldIndex name = none) ∧
    ((∀ e ∈ m.methods, e.1 ≠ name) → m.method name = none) ∧
    ((∀ e ∈ m.ptr_methods, e.1 ≠ name) → m.ptrMethod name = none) ∧
    (∀ index, m.fieldIndex name = some index → (name, index) ∈ m.fields) ∧
    (∀ fn, m.method name = some fn → (name, fn) ∈ m.methods) ∧
    (∀ fn, m.ptrMethod name = some fn → (name, fn) ∈ m.ptr_methods) ∧
    (∀ before index after, m.fields = before ++ (name, index) :: after →
      (∀ e ∈ before, e.1 ≠ name) → m.fieldIndex name = some index) := by
  refine ⟨?_, ?_, ?_, ?_, ?_, ?_, ?_⟩
  · intro hn
    exact lookup_none_of_forall m.fields name hn
  · intro hn
    simp [Metatable.method, RawGetString, lookup_none_of_forall m.methods name hn]
  · intro hn
    simp [Metatable.ptrMethod, RawGetString, lookup_none_of_forall m.ptr_methods name hn]
  · intro index hi
    exact mem_of_lookup_some m.fields name index hi
  · intro fn hf
    unfold Metatable.method RawGetString at hf
    cases hl : m.methods.lookup name with
    | none => simp [hl] at hf
    | some v =>
      simp only [hl] at hf
      split at hf
      · simp only [Option.some.injEq] at hf
        subst hf
        exact mem_of_lookup_some m.methods name v hl
      · cases hf
  · intro fn hf
    unfold Metatable.ptrMethod RawGetString at hf
    cases hl : m.ptr_methods.lookup name with
    | none => simp [hl] at hf
    | some v =>
      simp only [hl] at hf
      split at hf
      · simp only [Option.some.injEq] at hf
        subst hf
        exact mem_of_lookup_some m.ptr_methods name v hl
      · cases hf
  · intro before index after hm hb
    unfold Metatable.fieldIndex
    rw [hm]
    exact lookup_append_of_forall before after name index hb

theorem C16_lookup_is_exact_witness :
    mtExact.fieldIndex "name" = none ∧ mtExact.method "hello" = none ∧
      mtExact.ptrMethod "increaseAge" = none :=
  ⟨(C16_lookup_is_exact mtExact "name").1 (by decide),
   (C16_lookup_is_exact mtExact "hello").2.1 (by decide),
   (C16_lookup_is_exact mtExact "increaseAge").2.2.1 (by decide)⟩

/-- C16, as stated, fails: the descriptor `mtExact` exposes a field under Name
and holds no entry name; the lookup of Name resolves to the field, the lookup
of name to nothing, and structIndex returns nothing for name. -/
theorem C16_counterexample :
    mtExact.fieldIndex "Name" = some [0] ∧
    mtExact.fieldIndex "name" = none ∧
    structIndex (ValueOf pTim) optsNone mtExact true "Name" hTim =
      (.ret (some (.string "Tim")), hTim) ∧
    structIndex (ValueOf pTim) optsNone mtExact true "name" hTim = (.ret none, hTim) ∧
    mtExact.method "Hello" = some (.function 1) ∧ mtExact.method "hello" = none ∧
    ptrIndex [.userdata pTim optsNone] mtExact "hello" hTim = (.ret none, hTim) := by
  decide

/-! ## The claim on nested mutation -/

/-- An exported field of an addressable struct is addressable, at the location
of the struct extended by its index, and it is settable. -/
theorem RValue.FieldByIndex_single_addr (floc : Loc) (h : Heap) (d : FieldTypes) (fs : Vals)
    (i : Nat) (m : Bool) (t : GoType) (f : GoVal)
    (hr : h.read floc = some (.struct d fs)) (hd : d.get? i = some (true, m, t))
    (hg : fs.get? i = some f) :
    (RValue.addr floc false false).FieldByIndex [i] h =
      .ok (.addr ⟨floc.cell, floc.path ++ [i]⟩ false false) := by
  simp [RValue.FieldByIndex, RValue.Field, RValue.load, hr, hd, hg]

/-- A field of a struct held by value is held by value: it is not
addressable. -/
theorem RValue.FieldByIndex_single_direct (h : Heap) (d : FieldTypes) (fs : Vals)
    (i : Nat) (e m : Bool) (t : GoType) (f : GoVal)
    (hd : d.get? i = some (e, m, t)) (hg : fs.get? i = some f) :
    (Indirect (ValueOf (.struct d fs)) h).FieldByIndex [i] h =
      .ok (.direct f (!e && !m) (!e && m)) := by
  simp [Indirect, ValueOf, RValue.FieldByIndex, RValue.Field, RValue.load, hd, hg]

theorem readPath_append (v : GoVal) (p q : List Nat) :
    readPath v (p ++ q) = (readPath v p).bind (fun u => readPath u q) := by
  induction p generalizing v with
  | nil => simp [readPath]
  | cons i p ih =>
    cases v with
    | struct d fs =>
      simp only [List.cons_append, readPath]
      cases fs.get? i with
      | none => rfl
      | some f => exact ih f
    | array t es =>
      simp only [List.cons_append, readPath]
      cases es.get? i with
      | none => rfl
      | some f => exact ih f
    | bool b => simp [readPath]
    | int b => simp [readPath]
    | str b => simp [readPath]
    | ptr a b => simp [readPath]
    | slice a b => simp [readPath]

/-- The field `i` of the struct stored at a location is stored at the location
extended by `i`. -/
theorem Heap.read_field (h : Heap) (floc : Loc) (d : FieldTypes) (fs : Vals) (i : Nat)
    (hr : h.read floc = some (.struct d fs)) :
    h.read ⟨floc.cell, floc.path ++ [i]⟩ = fs.get? i := by
  unfold Heap.read at hr ⊢
  cases hc : h[floc.cell]? with
  | none => simp [hc] at hr
  | some c =>
    simp only [hc] at hr ⊢
    rw [readPath_append, hr]
    simp only [Option.bind, readPath]
    cases fs.get? i <;> rfl

theorem RValue.Field_canAddr (v : RValue) (i : Nat) (h : Heap) (f : RValue)
    (hv : v.CanAddr = true) (hf : v.Field i h = .ok f) : f.CanAddr = true := by
  cases v with
  | invalid => simp [RValue.CanAddr] at hv
  | direct y s e => simp [RValue.CanAddr] at hv
  | addr l s e =>
    unfold RValue.Field at hf
    split at hf
    · split at hf
      · simp only [Except.ok.injEq] at hf
        subst hf
        rfl
      · cases hf
    · cases hf

theorem RValue.Elem_canAddr (v : RValue) (h : Heap) (r : RValue) (t : GoType) (l : Loc)
    (hl : v.load h = some (.ptr t (some l))) (hr : v.Elem h = .ok r) : r.CanAddr = true := by
  unfold RValue.Elem at hr
  rw [hl] at hr
  cases v with
  | invalid => simp [RValue.load] at hl
  | direct y s e =>
    simp only [Except.ok.injEq] at hr
    subst hr
    rfl
  | addr l2 s e =>
    simp only [Except.ok.injEq] at hr
    subst hr
    rfl

theorem RValue.fieldByIndexLoop_canAddr (h : Heap) :
    ∀ (index : List Nat) (v : RValue) (first : Bool) (r : RValue),
      v.CanAddr = true → RValue.fieldByIndexLoop v first h index = .ok r → r.CanAddr = true
  | [], v, first, r, hv, hr => by
    simp only [RValue.fieldByIndexLoop, Except.ok.injEq] at hr
    subst hr
    exact hv
  | x :: rest, v, first, r, hv, hr => by
    simp only [RValue.fieldByIndexLoop] at hr
    split at hr
    · cases hr
    · rename_i v1 hstep
      have hv1 : v1.CanAddr = true := by
        split at hstep
        · simp only [Except.ok.injEq] at hstep
          subst hstep
          exact hv
        · split at hstep
          · cases hstep
          · rename_i t l hl
            exact RValue.Elem_canAddr v h v1 _ l hl hstep
          · simp only [Except.ok.injEq] at hstep
            subst hstep
            exact hv
      split at hr
      · cases hr
      · rename_i f hf
        exact RValue.fieldByIndexLoop_canAddr h rest f false r
          (RValue.Field_canAddr v1 x h f hv1 hf) hr

/-- Every field reached from an addressable struct is addressable. -/
theorem RValue.FieldByIndex_canAddr (v : RValue) (index : List Nat) (h : Heap) (r : RValue)
    (hv : v.CanAddr = true) (hr : v.FieldByIndex index h = .ok r) : r.CanAddr = true := by
  unfold RValue.FieldByIndex at hr
  split at hr
  · exact RValue.Field_canAddr v _ h r hv hr
  · split at hr
    · exact RValue.fieldByIndexLoop_canAddr h index v true r hv hr
    · cases hr

/-- C17, amended: nested mutation through addressable fields.  (0) Every field
of a proxy in pointer form is addressable.  (1) When the key resolves to an
addressable field of struct or array kind, structIndex returns a proxy over
the address of the field, not over a copy.  (2) Under TransparentPointers,
when the key resolves to a non-nil pointer to a struct, it returns a proxy
over that pointer.  (3) A structNewIndex through a proxy over the address
`floc` of a struct resolves its field from that address (an exported field `i`
at `floc` extended by `i`), so when it succeeds the nested field of the parent
holds the converted value, or under TransparentPointers, for a pointer field,
a pointer to a fresh cell holding it.  (4) A field of a struct wrapped by
value is held by value, not addressable, and for a field held by value the
returned proxy holds a copy of the struct or array. -/
theorem C17_nested_mutation (opts : ReflectOptions) (h : Heap) :
    (∀ (T : GoType) (sl : Loc) (index : List Nat) (field : RValue),
      (Indirect (ValueOf (.ptr T (some sl))) h).FieldByIndex index h = .ok field →
      field.CanAddr = true) ∧
    (∀ (ref : RValue) (mt : Metatable) (isPtr : Bool) (key : String) (index : List Nat)
        (floc : Loc) (x : GoVal),
      (isPtr = true ∨ mt.method key = none) → mt.ptrMethod key = none →
      mt.fieldIndex key = some index →
      (Indirect ref h).FieldByIndex index h = .ok (.addr floc false false) →
      h.read floc = some x → (x.kind = .Struct ∨ x.kind = .Array) →
      structIndex ref opts mt isPtr key h =
        (.ret (some (.userdata (.ptr x.typeOf (some floc)) opts)), h)) ∧
    (∀ (ref : RValue) (mt : Metatable) (isPtr : Bool) (key : String) (index : List Nat)
        (field : RValue) (E : GoType) (tl : Loc) (x : GoVal),
      opts.TransparentPointers = true →
      (isPtr = true ∨ mt.method key = none) → mt.ptrMethod key = none →
      mt.fieldIndex key = some index →
      (Indirect ref h).FieldByIndex index h = .ok field → field.ro = false →
      field.load h = some (.ptr E (some tl)) → h.read tl = some x → x.kind = .Struct →
      structIndex ref opts mt isPtr key h =
        (.ret (some (.userdata (.ptr x.typeOf (some tl)) opts)), h)) ∧
    (∀ (floc : Loc) (d : FieldTypes) (fs : Vals) (i : Nat) (m : Bool) (t : GoType) (f : GoVal),
      h.read floc = some (.struct d fs) → d.get? i = some (true, m, t) → fs.get? i = some f →
      (RValue.addr floc false false).FieldByIndex [i] h =
          .ok (.addr ⟨floc.cell, floc.path ++ [i]⟩ false false) ∧
        h.read ⟨floc.cell, floc.path ++ [i]⟩ = some f) ∧
    (∀ (conv : Converter) (mt : Metatable) (key : String) (value : LValue) (T : GoType)
        (floc : Loc) (index : List Nat) (nloc : Loc) (oldv : GoVal) (gv : RValue)
        (cells : List GoVal) (x : GoVal),
      opts.Immutable = false → mt.fieldIndex key = some index →
      (RValue.addr floc false false).FieldByIndex index h = .ok (.addr nloc false false) →
      h.read nloc = some oldv →
      gv.ro = false → gv.load (h ++ cells) = some x →
      ((oldv.typeOf.kind ≠ .Ptr ∨ opts.TransparentPointers = false) →
        conv value oldv.typeOf h = .ok (gv, cells) → x.typeOf = oldv.typeOf →
        ∃ h1, structNewIndex conv (ValueOf (.ptr T (some floc))) opts mt true key value h =
            (.ret none, h1) ∧
          h1.read nloc = some x) ∧
      (∀ E old, oldv = .ptr E old → opts.TransparentPointers = true →
        conv value E h = .ok (gv, cells) → x.typeOf = E →
        (∀ l s e, gv = .addr l s e → nloc.apart l = true) →
        ∃ h2, structNewIndex conv (ValueOf (.ptr T (some floc))) opts mt true key value h =
            (.ret none, h2) ∧
          h2.read nloc = some (.ptr E (some ⟨(h ++ cells).length, []⟩)) ∧
          h2.read ⟨(h ++ cells).length, []⟩ = some x)) ∧
    (∀ (d : FieldTypes) (fs : Vals) (i : Nat) (e m : Bool) (t : GoType) (x : GoVal),
      d.get? i = some (e, m, t) → fs.get? i = some x →
      (Indirect (ValueOf (.struct d fs)) h).FieldByIndex [i] h =
          .ok (.direct x (!e && !m) (!e && m)) ∧
        RValue.CanAddr (.direct x (!e && !m) (!e && m)) = false) ∧
    (∀ (ref : RValue) (mt : Metatable) (isPtr : Bool) (key : String) (index : List Nat)
        (x : GoVal),
      (isPtr = true ∨ mt.method key = none) → mt.ptrMethod key = none →
      mt.fieldIndex key = some index →
      (Indirect ref h).FieldByIndex index h = .ok (.direct x false false) →
      (x.kind = .Struct ∨ x.kind = .Array) →
      structIndex ref opts mt isPtr key h = (.ret (some (.userdata x opts)), h)) := by
  refine ⟨?_, ?_, ?_, ?_, ?_, ?_, ?_⟩
  · intro T sl index field hfld
    exact RValue.FieldByIndex_canAddr _ index h field (by simp [Indirect, ValueOf, RValue.load,
      RValue.CanAddr]) hfld
  · intro ref mt isPtr key index floc x hm hp hf hfld hx hk
    have hnk : x.kind ≠ .Ptr ∧ x.kind ≠ .Slice := by
      rcases hk with hk | hk <;> simp [hk]
    rw [structIndex_field ref opts mt isPtr key h index _ hm hp hf hfld rfl,
      structIndex.switch_other _ opts key h x (by simp [RValue.load, hx]) hnk,
      structIndex.push_addr floc opts h x hx hk]
  · intro ref mt isPtr key index field E tl x hT hm hp hf hfld hro hl hx hk
    rw [structIndex_field ref opts mt isPtr key h index field hm hp hf hfld
        (RValue.canInterface_of_ro field h _ hl hro),
      structIndex.switch_pointer field opts key h E tl hT hl,
      structIndex.deref_some field opts h E tl x hl hro hx]
    simp [hk]
  · intro floc d fs i m t f hr hd hg
    exact ⟨RValue.FieldByIndex_single_addr floc h d fs i m t f hr hd hg,
      by rw [Heap.read_field h floc d fs i hr]; exact hg⟩
  · intro conv mt key value T floc index nloc oldv gv cells x hI hf hfld hold hgro hx
    have href : (if true = true then (ValueOf (.ptr T (some floc))).Elem h
        else .ok (ValueOf (.ptr T (some floc)))) = .ok (.addr floc false false) := by
      simp [ValueOf, RValue.Elem, RValue.load]
    constructor
    · intro hk hconv hxt
      obtain ⟨h1, hret, hr1, _, _⟩ := structNewIndex_plain_field conv
        (ValueOf (.ptr T (some floc))) opts mt true key value h _ index _ oldv gv cells x hI href
        hf hfld hold hk hconv hgro hx hxt
      exact ⟨h1, hret, hr1⟩
    · intro E old hov hT hconv hxt hsrc
      subst hov
      obtain ⟨h2, hret, hrf, hrn, _, _⟩ := structNewIndex_pointer_field conv
        (ValueOf (.ptr T (some floc))) opts mt true key value h _ index _ E old gv cells x hT hI
        href hf hfld hold hconv hgro hx hxt hsrc
      exact ⟨h2, hret, hrf, hrn⟩
  · intro d fs i e m t x hd hg
    exact ⟨RValue.FieldByIndex_single_direct h d fs i e m t x hd hg, rfl⟩
  · intro ref mt isPtr key index x hm hp hf hfld hk
    have hnk : x.kind ≠ .Ptr ∧ x.kind ≠ .Slice := by
      rcases hk with hk | hk <;> simp [hk]
    have hnew : New x opts = .userdata x opts := by
      cases x with
      | struct a b => rfl
      | array a b => rfl
      | bool b => simp [GoVal.kind, GoVal.typeOf, GoType.kind] at hk
      | int b => simp [GoVal.kind, GoVal.typeOf, GoType.kind] at hk
      | str b => simp [GoVal.kind, GoVal.typeOf, GoType.kind] at hk
      | ptr a b => simp [GoVal.kind, GoVal.typeOf, GoType.kind] at hk
      | slice a b => simp [GoVal.kind, GoVal.typeOf, GoType.kind] at hk
    rw [structIndex_field ref opts mt isPtr key h index _ hm hp hf hfld rfl,
      structIndex.switch_other _ opts key h x (by simp [RValue.load]) hnk]
    unfold structIndex.push
    simp [RValue.CanAddr, RValue.Interface, RValue.ro, RValue.load, hnew]

theorem C17_nested_mutation_witness :
    structIndex (ValueOf pFamily) optsNone mtFamily true "Mother" hFamily =
      (.ret (some (.userdata (.ptr (GoVal.typeOf (.struct tPerson
        (.cons (.str "Luara") (.cons (.int 0) .nil)))) (some ⟨0, [0]⟩)) optsNone)), hFamily) ∧
    (∃ h1, structNewIndex convBasic (ValueOf (.ptr (.struct tPerson) (some ⟨0, [0]⟩))) optsNone
        mtPerson true "Name" (.string "Laura") hFamily = (.ret none, h1) ∧
      h1.read ⟨0, [0, 0]⟩ = some (.str "Laura")) ∧
    structIndex (ValueOf vFamily) optsNone mtFamily false "Mother" hFamily =
      (.ret (some (.userdata (.struct tPerson (.cons (.str "Luara") (.cons (.int 0) .nil)))
        optsNone)), hFamily) :=
  ⟨(C17_nested_mutation optsNone hFamily).2.1 (ValueOf pFamily) mtFamily true "Mother" [0]
      ⟨0, [0]⟩ (.struct tPerson (.cons (.str "Luara") (.cons (.int 0) .nil))) (Or.inl rfl)
      (by decide) (by decide) (by decide) (by decide) (Or.inl rfl),
   ((C17_nested_mutation optsNone hFamily).2.2.2.2.1 convBasic mtPerson "Name" (.string "Laura")
      (.struct tPerson) ⟨0, [0]⟩ [0] ⟨0, [0, 0]⟩ (.str "Luara") (ValueOf (.str "Laura")) []
      (.str "Laura") rfl (by decide) (by decide) (by decide) rfl (by decide)).1
      (Or.inl (by decide)) (by decide) rfl,
   (C17_nested_mutation optsNone hFamily).2.2.2.2.2.2 (ValueOf vFamily) mtFamily false "Mother"
      [0] (.struct tPerson (.cons (.str "Luara") (.cons (.int 0) .nil))) (Or.inr (by decide))
      (by decide) (by decide) (by decide) (Or.inl rfl)⟩

/-- C17, as stated, fails in its last part: a struct wrapped by value that
embeds a pointer to the family.  The field Mother, promoted through the
embedded pointer, is addressable, and structIndex returns a proxy over its
address in the family, not a copy. -/
theorem C17_counterexample :
    mtEmb.fieldIndex "Mother" = some [0, 0] ∧
    (Indirect (ValueOf vEmb) hFamily).FieldByIndex [0, 0] hFamily =
      .ok (.addr ⟨0, [0]⟩ false false) ∧
    RValue.CanAddr (.addr ⟨0, [0]⟩ false false) = true ∧
    structIndex (ValueOf vEmb) optsNone mtEmb false "Mother" hFamily =
      (.ret (some (.userdata (.ptr (.struct tPerson) (some ⟨0, [0]⟩)) optsNone)), hFamily) ∧
    (structIndex (ValueOf vEmb) optsNone mtEmb false "Mother" hFamily).1 ≠
      .ret (some (.userdata (.struct tPerson (.cons (.str "Luara") (.cons (.int 0) .nil)))
        optsNone)) := by
  decide

end Luar
